import Mathlib

/-!
# WeightedDigraph: a shallow embedding of `WeightedDigraph.cpp`

The C++ class keeps a vertex count, an insertion counter, a dense boolean
adjacency matrix (`boolMatrix`) and one `std::unordered_map<int,double>` of
outgoing arcs per vertex (`pathMaps`).

Modelling conventions:

* vertex identifiers are natural numbers; "in range" means `< numVertices`;
* a finite `double` is the rational number it denotes, and the type `Weight` adds
  positive infinity (`numeric_limits<double>::infinity()`).  The sum of two doubles
  is rounded as IEEE 754 binary64 does: to 53 significant bits, never finer than
  `2^-1074`, to nearest with ties to even (`roundDouble`).  Overflow to infinity is
  left out: the weights are read as `float`, so no sum the code can form reaches
  `2^1024`;
* an `unordered_map<int,double>` is an association list with at most one entry
  per key; iteration follows list order.  The lemmas about the queries are proved
  for all well-formed graphs, so they hold for every iteration order;
* the `std::set<std::pair<int,double>>` of `FindMinimumWeightedPath` is a list
  kept in the order of `std::pair` (vertex first, then distance);
* the loops that need not terminate take fuel, one unit per iteration of the
  `while` loop;
* `vector` reads and writes use `List.getD` and `List.set`; the theorems assume
  in-range indices, where these coincide with the C++ operations;
* a result `none` stands for undefined behaviour of the C++ code that decides the
  result (comparing with the value read through an end iterator, taking the weight
  from `end()`, indexing with `-1`) or for running out of fuel.
-/

namespace WeightedDigraph

/-- A `double`: a finite value (the rational it denotes) or positive infinity. -/
inductive Weight where
  | fin : ℚ → Weight
  | inf : Weight
  deriving DecidableEq

/-- Two to an integer power, as a rational number. -/
def twoPow (p : Int) : ℚ :=
  if 0 ≤ p then ((2 ^ p.toNat : Nat) : ℚ) else 1 / ((2 ^ (-p).toNat : Nat) : ℚ)

/-- The integer nearest to `y`; a tie goes to the even neighbour. -/
def roundHalfEven (y : ℚ) : Int :=
  if y - (⌊y⌋ : ℚ) < 1 / 2 then ⌊y⌋
  else if 1 / 2 < y - (⌊y⌋ : ℚ) then ⌊y⌋ + 1
  else if ⌊y⌋ % 2 = 0 then ⌊y⌋ else ⌊y⌋ + 1

/-- The binary logarithm of a natural number, rounded down, by repeated halving. -/
def log2Fuel : Nat → Nat → Nat
  | 0, _ => 0
  | fuel + 1, n => if n < 2 then 0 else log2Fuel fuel (n / 2) + 1

/-- The binary exponent of a positive rational: the `e` with `2^e ≤ x < 2^(e+1)`. -/
def floorLog2 (x : ℚ) : Int :=
  if twoPow ((log2Fuel x.num.natAbs x.num.natAbs : Int) - (log2Fuel x.den x.den : Int)) ≤ x then
    (log2Fuel x.num.natAbs x.num.natAbs : Int) - (log2Fuel x.den x.den : Int)
  else (log2Fuel x.num.natAbs x.num.natAbs : Int) - (log2Fuel x.den x.den : Int) - 1

/-- The exponent of the unit in the last place of a binary64 value near `x`: 53
significant bits, and never below the subnormal spacing `2^-1074`. -/
def ulpExp (x : ℚ) : Int := max (floorLog2 |x| - 52) (-1074)

/-- The binary64 value nearest to `x` (round to nearest, ties to even), for `x`
below the overflow threshold. -/
def roundDouble (x : ℚ) : ℚ :=
  (roundHalfEven (x / twoPow (ulpExp x)) : ℚ) * twoPow (ulpExp x)

/-- Addition of doubles: the exact sum of two finite values is rounded to the nearest
double; anything plus infinity is infinity. -/
def Weight.add : Weight → Weight → Weight
  | Weight.fin a, Weight.fin b => Weight.fin (roundDouble (a + b))
  | _, _ => Weight.inf

/-- The comparison `a < b` on doubles. -/
def Weight.lt : Weight → Weight → Bool
  | Weight.fin a, Weight.fin b => decide (a < b)
  | Weight.fin _, Weight.inf => true
  | Weight.inf, _ => false

/-- The call `m.find(key)` on an `unordered_map<int,double>`; `none` is `m.end()`. -/
def mapFind (m : List (Nat × ℚ)) (key : Nat) : Option (Nat × ℚ) :=
  m.find? (fun e => e.1 == key)

/-- The call `m.insert(e)` on an `unordered_map<int,double>`: nothing happens when the
key is already present.  A new entry goes to the front of the list; no theorem
depends on where it goes. -/
def mapInsert (m : List (Nat × ℚ)) (e : Nat × ℚ) : List (Nat × ℚ) :=
  match mapFind m e.1 with
  | some _ => m
  | none => e :: m

end WeightedDigraph

/-- The state of a `WeightedDigraph` object. -/
structure WeightedDigraph where
  numVertices : Nat
  numArcs : Nat
  boolMatrix : List (List Bool)
  pathMaps : List (List (Nat × ℚ))

namespace WeightedDigraph

/-- The vector `boolVec` after the first constructor loop: `numVertices` times false. -/
def boolVec (numVertices : Nat) : List Bool := List.replicate numVertices false

/-- The member `emptyMap`. -/
def emptyMap : List (Nat × ℚ) := []

/-- The object after the three initialisation loops of the constructor. -/
def initial (numVertices : Nat) : WeightedDigraph where
  numVertices := numVertices
  numArcs := 0
  boolMatrix := List.replicate numVertices (boolVec numVertices)
  pathMaps := List.replicate numVertices emptyMap

/-- The row `boolMatrix[vertex]`. -/
def row (g : WeightedDigraph) (vertex : Nat) : List Bool := g.boolMatrix.getD vertex []

/-- The map `pathMaps[vertex]`. -/
def outArcs (g : WeightedDigraph) (vertex : Nat) : List (Nat × ℚ) := g.pathMaps.getD vertex []

/-- The private mutator `InsertArc(from, to, weight)`: sets the matrix entry, inserts
into the out-arc map of `from` (a no-op when `to` is already a key) and counts the call. -/
def InsertArc (g : WeightedDigraph) (src dst : Nat) (weight : ℚ) : WeightedDigraph where
  numVertices := g.numVertices
  boolMatrix := g.boolMatrix.set src ((g.row src).set dst true)
  pathMaps := g.pathMaps.set src (mapInsert (g.outArcs src) (dst, weight))
  numArcs := g.numArcs + 1

/-- The constructor: initialisation, then one `InsertArc` per input line, in input order. -/
def construct (numVertices : Nat) (arcs : List (Nat × Nat × ℚ)) : WeightedDigraph :=
  arcs.foldl (fun g a => g.InsertArc a.1 a.2.1 a.2.2) (initial numVertices)

/-- The query `GetOutDegree(vertex)`: counts the true entries of row `vertex`. -/
def GetOutDegree (g : WeightedDigraph) (vertex : Nat) : Nat :=
  (g.row vertex).foldl (fun outDegree elem => if elem then outDegree + 1 else outDegree) 0

/-- The query `GetArcWeight(from, to)`; `none` when `found` would be the end iterator. -/
def GetArcWeight (g : WeightedDigraph) (src dst : Nat) : Option Weight :=
  if (g.row src).getD dst false then
    match mapFind (g.outArcs src) dst with
    | some found => some (Weight.fin found.2)
    | none => none
  else some Weight.inf

/-- The query `AreConnected(from, to)`. -/
def AreConnected (g : WeightedDigraph) (src dst : Nat) : Bool :=
  match mapFind (g.outArcs src) dst with
  | some _ => true
  | none =>
    if src = dst then true
    else if (g.outArcs src).length = 0 then false
    else false

/-- The `for` loop of `IsPathValid`, entered with `prev` and the remaining elements.
In the branch for a vertex without outgoing arcs the code reads `*path.end()`,
which is undefined: the model gives `none`. -/
def isPathValidLoop (g : WeightedDigraph) : Nat → List Nat → Option Bool
  | _, [] => some true
  | prev, i :: rest =>
    if (g.outArcs i).length = 0 then none
    else
      match mapFind (g.outArcs prev) i with
      | none => some false
      | some _ => isPathValidLoop g i rest

/-- The query `IsPathValid(path)`.  On the empty list `path.begin()` is the end
position: the value read into `prev` is never used, the increment stays on the end
position, the loop is skipped and the function returns true. -/
def IsPathValid (g : WeightedDigraph) (path : List Nat) : Option Bool :=
  match path with
  | [] => some true
  | prev :: rest => isPathValidLoop g prev rest

/-- The `for` loop of `GetPathWeight`. -/
def getPathWeightLoop (g : WeightedDigraph) : Nat → List Nat → Weight → Option Weight
  | _, [], cumWeight => some cumWeight
  | prev, elem :: rest, cumWeight =>
    match mapFind (g.outArcs prev) elem with
    | none => none
    | some found => getPathWeightLoop g elem rest (cumWeight.add (Weight.fin found.2))

/-- The query `GetPathWeight(path)`: infinity when `IsPathValid` is false, otherwise
the sum computed by the loop. -/
def GetPathWeight (g : WeightedDigraph) (path : List Nat) : Option Weight :=
  match IsPathValid g path with
  | none => none
  | some false => some Weight.inf
  | some true =>
    match path with
    | [] => some (Weight.fin 0)
    | prev :: rest => getPathWeightLoop g prev rest (Weight.fin 0)

/-- The inner `for` loop of `DoesPathExist` over the out-arcs of `startNode`:
`Sum.inl b` is `return b`, `Sum.inr` carries `visited` and `queue` to the next
iteration of the `while` loop. -/
def doesPathExistFor (g : WeightedDigraph) (src dst : Nat) :
    List (Nat × ℚ) → List Bool → List Nat → Sum Bool (List Bool × List Nat)
  | [], visited, queue => Sum.inr (visited, queue)
  | iter :: rest, visited, queue =>
    match mapFind (g.outArcs src) dst with
    | some _ => Sum.inl true
    | none =>
      if src = dst then Sum.inl false
      else if (g.outArcs src).length = 0 then Sum.inl false
      else if !(visited.getD iter.1 false) then
        if iter.1 = dst then Sum.inl true
        else doesPathExistFor g src dst rest (visited.set iter.1 true) (queue ++ [iter.1])
      else doesPathExistFor g src dst rest visited queue

/-- The `while` loop of `DoesPathExist`; one unit of fuel per dequeued vertex. -/
def doesPathExistWhile (g : WeightedDigraph) (src dst : Nat) :
    Nat → List Bool → List Nat → Option Bool
  | _, _, [] => some false
  | 0, _, _ :: _ => none
  | fuel + 1, visited, startNode :: queue =>
    match doesPathExistFor g src dst (g.outArcs startNode) visited queue with
    | Sum.inl b => some b
    | Sum.inr (visited1, queue1) => doesPathExistWhile g src dst fuel visited1 queue1

/-- The query `DoesPathExist(from, to)`, with the fuel for its `while` loop. -/
def DoesPathExist (fuel : Nat) (g : WeightedDigraph) (src dst : Nat) : Option Bool :=
  doesPathExistWhile g src dst fuel ((List.replicate g.numVertices false).set src true) [src]

/-- The ordering of `std::pair<int,double>`: first component, then second. -/
def pairLess (a b : Nat × Weight) : Bool :=
  decide (a.1 < b.1) || (!decide (b.1 < a.1) && a.2.lt b.2)

/-- The call `s.insert(x)` on a `std::set<std::pair<int,double>>`, kept as a sorted list. -/
def setInsert (x : Nat × Weight) : List (Nat × Weight) → List (Nat × Weight)
  | [] => [x]
  | y :: ys =>
    if pairLess x y then x :: y :: ys
    else if pairLess y x then y :: setInsert x ys
    else y :: ys

/-- The call `s.erase(x)`: removes the elements equivalent to `x`. -/
def setErase (x : Nat × Weight) (s : List (Nat × Weight)) : List (Nat × Weight) :=
  s.filter (fun y => pairLess x y || pairLess y x)

/-- The local variables of `FindMinimumWeightedPath`.  In `previous`, `none` is
the initial value `-1`. -/
structure PathSearch where
  minDistance : List Weight
  previous : List (Option Nat)
  vertexQueue : List (Nat × Weight)

/-- The body of the inner `for` loop of `FindMinimumWeightedPath` for one out-arc of `u`. -/
def relax (u : Nat) (distance : Weight) (s : PathSearch) (i : Nat × ℚ) : PathSearch :=
  let v := i.1
  let weight := i.2
  let distanceThroughU := distance.add (Weight.fin weight)
  if distanceThroughU.lt (s.minDistance.getD v Weight.inf) then
    { minDistance := s.minDistance.set v distanceThroughU
      previous := s.previous.set v (some u)
      vertexQueue :=
        setInsert (v, distanceThroughU) (setErase (v, s.minDistance.getD v Weight.inf) s.vertexQueue) }
  else s

/-- The `while` loop of `FindMinimumWeightedPath`; one unit of fuel per extracted
element.  The loop need not terminate when weights are negative. -/
def searchWhile (g : WeightedDigraph) : Nat → PathSearch → Option PathSearch
  | fuel, s =>
    match s.vertexQueue with
    | [] => some s
    | (u, distance) :: queue =>
      match fuel with
      | 0 => none
      | fuel1 + 1 =>
        searchWhile g fuel1
          ((g.outArcs u).foldl (relax u distance)
            { minDistance := s.minDistance, previous := s.previous, vertexQueue := queue })

/-- The final `while` loop of `FindMinimumWeightedPath`, which follows `previous`
from `vertex` until it meets `src`.  Reading `previous[vertex] = -1` makes the
next iteration index the vector with `-1`. -/
def rebuild (previous : List (Option Nat)) (src : Nat) : Nat → Nat → List Nat → Option (List Nat)
  | 0, _, _ => none
  | fuel + 1, vertex, path =>
    match previous.getD vertex none with
    | none => none
    | some p => if p = src then some (p :: path) else rebuild previous src fuel p (p :: path)

/-- The query `FindMinimumWeightedPath(from, to)`, with the fuel for each of its two
`while` loops. -/
def FindMinimumWeightedPath (fuel : Nat) (g : WeightedDigraph) (src dst : Nat) :
    Option (List Nat) :=
  let minDistance := (List.replicate g.numVertices Weight.inf).set src (Weight.fin 0)
  let previous : List (Option Nat) := List.replicate g.numVertices none
  let vertexQueue := setInsert (src, minDistance.getD src Weight.inf) []
  if src = dst then some [src]
  else
    match searchWhile g fuel
        { minDistance := minDistance, previous := previous, vertexQueue := vertexQueue } with
    | none => none
    | some s => rebuild s.previous src fuel dst [dst]

/-! ## Specification vocabulary -/

/-- A direct arc `src → dst` is stored in the graph. -/
def HasArc (g : WeightedDigraph) (src dst : Nat) : Prop :=
  ∃ w, (dst, w) ∈ g.outArcs src

/-- The weight stored for the arc `src → dst`, if any. -/
def storedWeight (g : WeightedDigraph) (src dst : Nat) : Option ℚ :=
  (mapFind (g.outArcs src) dst).map Prod.snd

/-- The representation invariant of a `WeightedDigraph` object. -/
structure WellFormed (g : WeightedDigraph) : Prop where
  matrix_len : g.boolMatrix.length = g.numVertices
  maps_len : g.pathMaps.length = g.numVertices
  row_len : ∀ u, u < g.numVertices → (g.row u).length = g.numVertices
  keys_lt : ∀ u e, e ∈ g.outArcs u → e.1 < g.numVertices
  keys_nodup : ∀ u, ((g.outArcs u).map Prod.fst).Nodup
  matrix_iff : ∀ u v, u < g.numVertices → v < g.numVertices →
    ((g.row u).getD v false = true ↔ g.HasArc u v)
  degree_eq : ∀ u, u < g.numVertices → (g.row u).count true = (g.outArcs u).length

/-- All triples of the input name vertices in range. -/
def InRange (numVertices : Nat) (arcs : List (Nat × Nat × ℚ)) : Prop :=
  ∀ a ∈ arcs, a.1 < numVertices ∧ a.2.1 < numVertices

/-- The number of distinct destinations among the input triples that leave `v`. -/
def distinctDestinations (arcs : List (Nat × Nat × ℚ)) (v : Nat) : Nat :=
  (((arcs.filter (fun a => a.1 == v)).map (fun a => a.2.1)).dedup).length

/-- The graph of the shortest-path example: `0→1 (w=1)`, `0→2 (w=4)`, `1→2 (w=1)`. -/
def triangle : WeightedDigraph := construct 3 [(0, 1, 1), (0, 2, 4), (1, 2, 1)]

/-- The chain `0→1 (w=2)`, `1→2 (w=3)`. -/
def chain : WeightedDigraph := construct 3 [(0, 1, 2), (1, 2, 3)]

/-- Reachability: `dst` is reachable from `src` along zero or more arcs. -/
def Reachable (g : WeightedDigraph) (src dst : Nat) : Prop :=
  Relation.ReflTransGen g.HasArc src dst

/-- The loop invariant of the breadth-first search of `DoesPathExist`.  `pending x y`
marks the arcs of the vertex being expanded that the `for` loop has not reached yet. -/
structure BfsInv (g : WeightedDigraph) (src dst : Nat) (pending : Nat → Nat → Prop)
    (visited : List Bool) (queue : List Nat) : Prop where
  len : visited.length = g.numVertices
  queued : ∀ x, x ∈ queue → visited.getD x false = true
  target : visited.getD dst false = false
  sound : ∀ x, visited.getD x false = true → g.Reachable src x
  start : visited.getD src false = true
  closed : ∀ x y, visited.getD x false = true → g.HasArc x y →
    x ∈ queue ∨ visited.getD y false = true ∨ pending x y

/-- The entry `minDistance[v]`. -/
def PathSearch.dist (s : PathSearch) (v : Nat) : Weight := s.minDistance.getD v Weight.inf

/-- The entry `previous[v]`. -/
def PathSearch.pred (s : PathSearch) (v : Nat) : Option Nat := s.previous.getD v none

/-- All stored weights are non-negative. -/
def NonNegative (g : WeightedDigraph) : Prop :=
  ∀ u e, e ∈ g.outArcs u → 0 ≤ e.2

/-- The denominator of the binary64 grid: every double is a multiple of `2^-1074`. -/
def gridDenominator : Nat := 2 ^ 1074

/-- One for an infinite entry, zero for a finite one. -/
def infWeight : Weight → Nat
  | Weight.inf => 1
  | Weight.fin _ => 0

/-- A finite entry scaled by `D`; zero for an infinite one. -/
def scaledWeight (D : Nat) : Weight → Nat
  | Weight.inf => 0
  | Weight.fin d => (d * (D : ℚ)).num.toNat

/-- The number of infinite entries of `minDistance`, as a sum. -/
def infCount (s : PathSearch) : Nat := (s.minDistance.map infWeight).sum

/-- The finite entries of `minDistance`, scaled by `D` and added up. -/
def scaledSum (D : Nat) (s : PathSearch) : Nat := (s.minDistance.map (scaledWeight D)).sum

/-- The state `a` is strictly below `b` in the lexicographic order on
`(infCount, scaledSum)`. -/
def Progress (D : Nat) (a b : PathSearch) : Prop :=
  infCount a < infCount b ∨ (infCount a = infCount b ∧ scaledSum D a < scaledSum D b)

/-- The loop invariant of `FindMinimumWeightedPath`.  Along `previous` the distance
never grows, and the ghost counter `rank` decreases where the distance stays the
same; `pending x e` marks the out-arcs of the vertex being expanded that the `for`
loop has not reached yet. -/
structure SearchInv (g : WeightedDigraph) (src : Nat) (rank : Nat → Nat)
    (pending : Nat → Nat × ℚ → Prop) (s : PathSearch) : Prop where
  len_d : s.minDistance.length = g.numVertices
  len_p : s.previous.length = g.numVertices
  d_src : s.dist src = Weight.fin 0
  d_nonneg : ∀ v d, s.dist v = Weight.fin d → 0 ≤ d
  d_rep : ∀ v d, s.dist v = Weight.fin d → roundDouble d = d
  d_den : ∀ v d, s.dist v = Weight.fin d → ∃ k : Nat, d = (k : ℚ) / (gridDenominator : ℚ)
  q_ok : ∀ v d, (v, d) ∈ s.vertexQueue → s.dist v = d ∧ d ≠ Weight.inf
  pred_ok : ∀ v d, v ≠ src → s.dist v = Weight.fin d →
    ∃ u w du, s.pred v = some u ∧ (v, w) ∈ g.outArcs u ∧ s.dist u = Weight.fin du ∧
      roundDouble (du + w) ≤ d ∧ (du < d ∨ (du = d ∧ rank u < rank v))
  relaxed : ∀ u du, s.dist u = Weight.fin du → ∀ e, e ∈ g.outArcs u →
    (u, Weight.fin du) ∈ s.vertexQueue ∨ pending u e ∨
      ∃ dv, s.dist e.1 = Weight.fin dv ∧ dv ≤ roundDouble (du + e.2)

/-- The sum of the stored arc weights over the consecutive pairs of a vertex sequence. -/
def arcSum (g : WeightedDigraph) : List Nat → ℚ
  | [] => 0
  | [_] => 0
  | a :: b :: rest => (g.storedWeight a b).getD 0 + arcSum g (b :: rest)

/-- The weight of a vertex sequence as the code computes it: the stored arc weights of
the consecutive pairs are added one after the other, each addition rounded, starting
from `c` at the vertex `prev`. -/
def roundedSumFrom (g : WeightedDigraph) : ℚ → Nat → List Nat → ℚ
  | c, _, [] => c
  | c, prev, x :: rest =>
    roundedSumFrom g (roundDouble (c + (g.storedWeight prev x).getD 0)) x rest

/-- The weight of a vertex sequence in double arithmetic, accumulated from its first
vertex on. -/
def roundedSum (g : WeightedDigraph) : List Nat → ℚ
  | [] => 0
  | v :: rest => roundedSumFrom g 0 v rest

/-- No addition rounds when the arc weights along the sequence are accumulated from
`c` at the vertex `prev`. -/
def sumsExactlyFrom (g : WeightedDigraph) : ℚ → Nat → List Nat → Prop
  | _, _, [] => True
  | c, prev, x :: rest =>
    roundDouble (c + (g.storedWeight prev x).getD 0) = c + (g.storedWeight prev x).getD 0 ∧
      sumsExactlyFrom g (c + (g.storedWeight prev x).getD 0) x rest

/-- No addition rounds when the arc weights along the sequence are accumulated from
its first vertex on: the code then computes the exact sum. -/
def sumsExactly (g : WeightedDigraph) : List Nat → Prop
  | [] => True
  | v :: rest => sumsExactlyFrom g 0 v rest

/-- A sequence of vertices that starts at `src`, ends at `dst` and follows direct arcs. -/
def IsWalk (g : WeightedDigraph) (src dst : Nat) (l : List Nat) : Prop :=
  l.head? = some src ∧ l.getLast? = some dst ∧ List.Chain' g.HasArc l

/-- The state of `FindMinimumWeightedPath` when the `while` loop is entered. -/
def searchStart (g : WeightedDigraph) (src : Nat) : PathSearch where
  minDistance := (List.replicate g.numVertices Weight.inf).set src (Weight.fin 0)
  previous := List.replicate g.numVertices none
  vertexQueue :=
    setInsert (src, ((List.replicate g.numVertices Weight.inf).set src (Weight.fin 0)).getD src
      Weight.inf) []

/-- The state at the head of the `while` loop of `FindMinimumWeightedPath` after `k`
iterations; the loop body is the one of `searchWhile`, and an empty frontier stops it. -/
def searchIterate (g : WeightedDigraph) : Nat → PathSearch → PathSearch
  | 0, s => s
  | k + 1, s =>
    match s.vertexQueue with
    | [] => s
    | (u, distance) :: queue =>
      searchIterate g k
        ((g.outArcs u).foldl (relax u distance)
          { minDistance := s.minDistance, previous := s.previous, vertexQueue := queue })

/-- The matrix entry `boolMatrix[u][v]` is true exactly when `v` is a key of `pathMaps[u]`,
for all in-range `u` and `v`. -/
def MatrixAgrees (g : WeightedDigraph) : Prop :=
  ∀ u v, u < g.numVertices → v < g.numVertices →
    ((g.row u).getD v false = true ↔ v ∈ (g.outArcs u).map Prod.fst)

/-- A graph on which additions round: `0→1 (w=2^60)`, `1→2 (w=1)`, `0→3 (w=2^60)`,
`3→2 (w=1/2)`, `2→0 (w=1)`. -/
def roundingGraph : WeightedDigraph :=
  construct 4 [(0, 1, 1152921504606846976), (1, 2, 1), (0, 3, 1152921504606846976),
    (3, 2, 1 / 2), (2, 0, 1)]

/-- The fork `0→1 (w=5)`, `0→2 (w=1)`. -/
def fork : WeightedDigraph := construct 3 [(0, 1, 5), (0, 2, 1)]

/-- The two-cycle `0→1 (w=1)`, `1→0 (w=1)`. -/
def twoCycle : WeightedDigraph := construct 2 [(0, 1, 1), (1, 0, 1)]

/-- The two-cycle with a self-loop at `0`: `0→1`, `1→0`, `0→0`. -/
def loopCycle : WeightedDigraph := construct 2 [(0, 1, 1), (1, 0, 1), (0, 0, 1)]

/-! ## Rounding -/

theorem twoPow_eq (p : Int) : twoPow p = (2 : ℚ) ^ p := by
  unfold twoPow
  by_cases hp : 0 ≤ p
  · rw [if_pos hp]
    obtain ⟨n, rfl⟩ := Int.eq_ofNat_of_zero_le hp
    simp
  · rw [if_neg hp]
    obtain ⟨n, hn⟩ := Int.eq_ofNat_of_zero_le (show 0 ≤ -p by omega)
    have hp1 : p = -(n : Int) := by omega
    rw [hn, hp1, zpow_neg]
    simp

theorem twoPow_pos (p : Int) : 0 < twoPow p := by
  rw [twoPow_eq]
  exact zpow_pos (by norm_num) p

theorem twoPow_add (a b : Int) : twoPow (a + b) = twoPow a * twoPow b := by
  simp only [twoPow_eq]
  exact zpow_add₀ (by norm_num) a b

theorem twoPow_sub (a b : Int) : twoPow (a - b) = twoPow a / twoPow b := by
  simp only [twoPow_eq]
  exact zpow_sub₀ (by norm_num) a b

theorem twoPow_le_iff (a b : Int) : twoPow a ≤ twoPow b ↔ a ≤ b := by
  simp only [twoPow_eq]
  exact zpow_le_zpow_iff_right₀ (by norm_num)

theorem twoPow_lt_iff (a b : Int) : twoPow a < twoPow b ↔ a < b := by
  simp only [twoPow_eq]
  exact zpow_lt_zpow_iff_right₀ (by norm_num)

theorem twoPow_natCast (n : Nat) : twoPow (n : Int) = ((2 ^ n : Nat) : ℚ) := by
  rw [twoPow_eq]
  simp

/-- A non-negative power of two is an integer. -/
theorem twoPow_int {k : Int} (hk : 0 ≤ k) : twoPow k = (((2 ^ k.toNat : Nat) : Int) : ℚ) := by
  unfold twoPow
  rw [if_pos hk]
  simp

theorem log2Fuel_spec : ∀ (fuel n : Nat), n ≤ fuel → 1 ≤ n →
    2 ^ log2Fuel fuel n ≤ n ∧ n < 2 ^ (log2Fuel fuel n + 1) := by
  intro fuel
  induction fuel with
  | zero =>
    intro n h1 h2
    omega
  | succ fuel ih =>
    intro n h1 h2
    rw [log2Fuel]
    by_cases hn : n < 2
    · rw [if_pos hn]
      have : n = 1 := by omega
      subst this
      simp
    · rw [if_neg hn]
      obtain ⟨h3, h4⟩ := ih (n / 2) (by omega) (by omega)
      constructor
      · rw [pow_succ]
        omega
      · rw [pow_succ]
        omega

theorem floorLog2_core {n d a b : Nat} {x : ℚ} (hd : 0 < d) (hxe : x = (n : ℚ) / (d : ℚ))
    (ha1 : 2 ^ a ≤ n) (ha2 : n < 2 ^ (a + 1)) (hb1 : 2 ^ b ≤ d) (hb2 : d < 2 ^ (b + 1)) :
    twoPow (if twoPow ((a : Int) - (b : Int)) ≤ x then (a : Int) - (b : Int)
      else (a : Int) - (b : Int) - 1) ≤ x ∧
    x < twoPow ((if twoPow ((a : Int) - (b : Int)) ≤ x then (a : Int) - (b : Int)
      else (a : Int) - (b : Int) - 1) + 1) := by
  have hdq : (0 : ℚ) < (d : ℚ) := by exact_mod_cast hd
  have ha1q : ((2 ^ a : Nat) : ℚ) ≤ (n : ℚ) := by exact_mod_cast ha1
  have ha2q : (n : ℚ) < ((2 ^ (a + 1) : Nat) : ℚ) := by exact_mod_cast ha2
  have hb1q : ((2 ^ b : Nat) : ℚ) ≤ (d : ℚ) := by exact_mod_cast hb1
  have hb2q : (d : ℚ) < ((2 ^ (b + 1) : Nat) : ℚ) := by exact_mod_cast hb2
  have hpa : (0 : ℚ) < ((2 ^ a : Nat) : ℚ) := by positivity
  have hpb : (0 : ℚ) < ((2 ^ b : Nat) : ℚ) := by positivity
  have hsa : ((2 ^ (a + 1) : Nat) : ℚ) = 2 * ((2 ^ a : Nat) : ℚ) := by
    push_cast
    ring
  have hsb : ((2 ^ (b + 1) : Nat) : ℚ) = 2 * ((2 ^ b : Nat) : ℚ) := by
    push_cast
    ring
  have hAB : twoPow ((a : Int) - (b : Int)) = ((2 ^ a : Nat) : ℚ) / ((2 ^ b : Nat) : ℚ) := by
    rw [twoPow_sub, twoPow_natCast, twoPow_natCast]
  have hsucc : ∀ k : Int, twoPow (k + 1) = 2 * twoPow k := by
    intro k
    rw [twoPow_add, mul_comm]
    congr 1
  by_cases hc : twoPow ((a : Int) - (b : Int)) ≤ x
  · rw [if_pos hc]
    refine ⟨hc, ?_⟩
    rw [hsucc, hAB, hxe, ← mul_div_assoc, div_lt_div_iff₀ hdq hpb]
    nlinarith
  · rw [if_neg hc]
    have hc1 : x < twoPow ((a : Int) - (b : Int)) := lt_of_not_le hc
    constructor
    · have h2 : twoPow ((a : Int) - (b : Int)) = 2 * twoPow ((a : Int) - (b : Int) - 1) := by
        rw [← hsucc]
        congr 1
        ring
      have h3 : twoPow ((a : Int) - (b : Int) - 1)
          = ((2 ^ a : Nat) : ℚ) / (2 * ((2 ^ b : Nat) : ℚ)) := by
        have : twoPow ((a : Int) - (b : Int) - 1) = twoPow ((a : Int) - (b : Int)) / 2 := by
          rw [h2]
          ring
        rw [this, hAB]
        field_simp
        ring
      rw [h3, hxe, div_le_div_iff₀ (by positivity) hdq]
      nlinarith
    · rw [show (a : Int) - (b : Int) - 1 + 1 = (a : Int) - (b : Int) by ring]
      exact hc1

theorem floorLog2_spec {x : ℚ} (hx : 0 < x) :
    twoPow (floorLog2 x) ≤ x ∧ x < twoPow (floorLog2 x + 1) := by
  have hnum : 0 < x.num := Rat.num_pos.2 hx
  have hn1 : 1 ≤ x.num.natAbs := by omega
  obtain ⟨ha1, ha2⟩ := log2Fuel_spec x.num.natAbs x.num.natAbs (le_refl _) hn1
  obtain ⟨hb1, hb2⟩ := log2Fuel_spec x.den x.den (le_refl _) x.den_pos
  have hxe : x = (x.num.natAbs : ℚ) / (x.den : ℚ) := by
    rw [Nat.cast_natAbs, abs_of_pos hnum]
    exact (Rat.num_div_den x).symm
  exact floorLog2_core x.den_pos hxe ha1 ha2 hb1 hb2

theorem floorLog2_lt {x : ℚ} (hx : 0 < x) {k : Int} (h : x < twoPow k) : floorLog2 x < k := by
  have := lt_of_le_of_lt (floorLog2_spec hx).1 h
  exact (twoPow_lt_iff _ _).1 this

theorem floorLog2_ge {x : ℚ} (hx : 0 < x) {k : Int} (h : twoPow k ≤ x) : k ≤ floorLog2 x := by
  have := lt_of_le_of_lt h (floorLog2_spec hx).2
  have := (twoPow_lt_iff _ _).1 this
  omega

theorem floorLog2_mono {x y : ℚ} (hx : 0 < x) (hxy : x ≤ y) : floorLog2 x ≤ floorLog2 y :=
  floorLog2_ge (lt_of_lt_of_le hx hxy) (le_trans (floorLog2_spec hx).1 hxy)

theorem roundHalfEven_intCast (k : Int) : roundHalfEven (k : ℚ) = k := by
  unfold roundHalfEven
  simp

theorem floor_le_roundHalfEven (y : ℚ) : ⌊y⌋ ≤ roundHalfEven y := by
  unfold roundHalfEven
  split_ifs <;> omega

theorem roundHalfEven_le_floor_add_one (y : ℚ) : roundHalfEven y ≤ ⌊y⌋ + 1 := by
  unfold roundHalfEven
  split_ifs <;> omega

theorem roundHalfEven_mono {y z : ℚ} (h : y ≤ z) : roundHalfEven y ≤ roundHalfEven z := by
  have hf : ⌊y⌋ ≤ ⌊z⌋ := Int.floor_mono h
  rcases lt_or_eq_of_le hf with hlt | heq
  · calc roundHalfEven y ≤ ⌊y⌋ + 1 := roundHalfEven_le_floor_add_one y
      _ ≤ ⌊z⌋ := by omega
      _ ≤ roundHalfEven z := floor_le_roundHalfEven z
  · unfold roundHalfEven
    rw [← heq]
    have hq : y - (⌊y⌋ : ℚ) ≤ z - (⌊y⌋ : ℚ) := by linarith
    split_ifs <;> first | omega | linarith

theorem ulpExp_of_pos {x : ℚ} (hx : 0 < x) : ulpExp x = max (floorLog2 x - 52) (-1074) := by
  unfold ulpExp
  rw [abs_of_pos hx]

theorem ulpExp_ge (x : ℚ) : -1074 ≤ ulpExp x := le_max_right _ _

theorem roundDouble_zero : roundDouble 0 = 0 := by
  unfold roundDouble
  rw [zero_div, show (0 : ℚ) = ((0 : Int) : ℚ) by simp, roundHalfEven_intCast]
  simp

theorem roundDouble_nonneg {x : ℚ} (hx : 0 ≤ x) : 0 ≤ roundDouble x := by
  unfold roundDouble
  apply mul_nonneg _ (le_of_lt (twoPow_pos _))
  have h1 : (0 : ℚ) ≤ x / twoPow (ulpExp x) := div_nonneg hx (le_of_lt (twoPow_pos _))
  have h2 : roundHalfEven ((0 : Int) : ℚ) ≤ roundHalfEven (x / twoPow (ulpExp x)) :=
    roundHalfEven_mono (by simpa using h1)
  rw [roundHalfEven_intCast] at h2
  exact_mod_cast h2

theorem gridDenominator_pos : 0 < gridDenominator := by
  unfold gridDenominator
  exact Nat.two_pow_pos 1074

theorem twoPow_grid : twoPow (1074 : Nat) = (gridDenominator : ℚ) := by
  unfold gridDenominator
  exact twoPow_natCast 1074

/-- Every value of `roundDouble` is an integer multiple of `2^-1074`. -/
theorem roundDouble_grid (x : ℚ) :
    ∃ k : Int, roundDouble x = (k : ℚ) / (gridDenominator : ℚ) := by
  have hp : 0 ≤ ulpExp x + 1074 := by have := ulpExp_ge x; omega
  refine ⟨roundHalfEven (x / twoPow (ulpExp x)) * ((2 ^ (ulpExp x + 1074).toNat : Nat) : Int), ?_⟩
  unfold roundDouble
  have h1 : twoPow (ulpExp x) = twoPow (ulpExp x + 1074) / twoPow (1074 : Nat) := by
    rw [← twoPow_sub]
    congr 1
    simp
  rw [h1, twoPow_int hp, twoPow_grid]
  push_cast
  ring

/-- When `x ≤ 2^k` and `2^k` lies on the grid of spacing `2^p`, rounding `x / 2^p`
cannot pass `2^k / 2^p`. -/
theorem roundHalfEven_div_le {x : ℚ} {k p : Int} (hkp : p ≤ k) (h : x ≤ twoPow k) :
    (roundHalfEven (x / twoPow p) : ℚ) * twoPow p ≤ twoPow k := by
  have h1 : x / twoPow p ≤ twoPow (k - p) := by
    rw [twoPow_sub]
    exact (div_le_div_iff_of_pos_right (twoPow_pos p)).2 h
  rw [twoPow_int (show 0 ≤ k - p by omega)] at h1
  have h2 := roundHalfEven_mono h1
  rw [roundHalfEven_intCast] at h2
  have h3 : (roundHalfEven (x / twoPow p) : ℚ) ≤ twoPow (k - p) := by
    rw [twoPow_int (show 0 ≤ k - p by omega)]
    exact_mod_cast h2
  calc (roundHalfEven (x / twoPow p) : ℚ) * twoPow p ≤ twoPow (k - p) * twoPow p :=
        mul_le_mul_of_nonneg_right h3 (le_of_lt (twoPow_pos p))
    _ = twoPow k := by rw [← twoPow_add]; congr 1; ring

theorem le_roundHalfEven_div {x : ℚ} {k p : Int} (hkp : p ≤ k) (h : twoPow k ≤ x) :
    twoPow k ≤ (roundHalfEven (x / twoPow p) : ℚ) * twoPow p := by
  have h1 : twoPow (k - p) ≤ x / twoPow p := by
    rw [twoPow_sub]
    exact (div_le_div_iff_of_pos_right (twoPow_pos p)).2 h
  rw [twoPow_int (show 0 ≤ k - p by omega)] at h1
  have h2 := roundHalfEven_mono h1
  rw [roundHalfEven_intCast] at h2
  have h3 : twoPow (k - p) ≤ (roundHalfEven (x / twoPow p) : ℚ) := by
    rw [twoPow_int (show 0 ≤ k - p by omega)]
    exact_mod_cast h2
  calc twoPow k = twoPow (k - p) * twoPow p := by rw [← twoPow_add]; congr 1; ring
    _ ≤ (roundHalfEven (x / twoPow p) : ℚ) * twoPow p :=
        mul_le_mul_of_nonneg_right h3 (le_of_lt (twoPow_pos p))

/-- Rounding is monotone on the non-negative rationals. -/
theorem roundDouble_mono {x y : ℚ} (hx : 0 ≤ x) (hxy : x ≤ y) : roundDouble x ≤ roundDouble y := by
  rcases eq_or_lt_of_le hx with h0 | hpos
  · rw [← h0, roundDouble_zero]
    exact roundDouble_nonneg (le_trans hx hxy)
  · have hypos : 0 < y := lt_of_lt_of_le hpos hxy
    have hfl := floorLog2_mono hpos hxy
    have hpx := ulpExp_of_pos hpos
    have hpy := ulpExp_of_pos hypos
    have hple : ulpExp x ≤ ulpExp y := by
      rw [hpx, hpy]
      exact max_le_max (by omega) (le_refl _)
    rcases eq_or_lt_of_le hple with heq | hlt
    · unfold roundDouble
      rw [heq]
      apply mul_le_mul_of_nonneg_right _ (le_of_lt (twoPow_pos _))
      have := roundHalfEven_mono
        ((div_le_div_iff_of_pos_right (twoPow_pos (ulpExp y))).2 hxy)
      exact_mod_cast this
    · have h1 : ulpExp y = floorLog2 y - 52 := by
        rw [hpy] at hlt ⊢
        have := ulpExp_ge x
        rcases max_cases (floorLog2 y - 52) (-1074) with ⟨h, _⟩ | ⟨h, _⟩
        · exact h
        · omega
      have h2 : floorLog2 x - 52 ≤ ulpExp x := by
        rw [hpx]
        exact le_max_left _ _
      have hxB : x ≤ twoPow (floorLog2 y) := by
        apply le_trans (le_of_lt (floorLog2_spec hpos).2)
        exact (twoPow_le_iff _ _).2 (by omega)
      have hBy : twoPow (floorLog2 y) ≤ y := (floorLog2_spec hypos).1
      calc roundDouble x ≤ twoPow (floorLog2 y) := roundHalfEven_div_le (by omega) hxB
        _ ≤ roundDouble y := le_roundHalfEven_div (by omega) hBy

/-- A multiple of `2^p` whose own unit in the last place is at most `2^p` is a fixed
point of rounding. -/
theorem roundDouble_of_multiple {r : ℚ} {m p : Int} (hr : r = (m : ℚ) * twoPow p)
    (hp : ulpExp r ≤ p) : roundDouble r = r := by
  unfold roundDouble
  generalize ulpExp r = q at hp
  have h1 : r / twoPow q = ((m * ((2 ^ (p - q).toNat : Nat) : Int) : Int) : ℚ) := by
    rw [hr, mul_div_assoc, ← twoPow_sub, twoPow_int (show 0 ≤ p - q by omega)]
    push_cast
    ring
  rw [h1, roundHalfEven_intCast, ← h1]
  exact div_mul_cancel₀ _ (ne_of_gt (twoPow_pos _))

theorem roundDouble_twoPow {k : Int} (hk : -1074 ≤ k) : roundDouble (twoPow k) = twoPow k := by
  have hfl : floorLog2 (twoPow k) = k := by
    have h1 := floorLog2_ge (twoPow_pos k) (le_refl (twoPow k))
    have h2 := floorLog2_lt (twoPow_pos k)
      (show twoPow k < twoPow (k + 1) from (twoPow_lt_iff _ _).2 (by omega))
    omega
  apply roundDouble_of_multiple (show twoPow k = ((1 : Int) : ℚ) * twoPow k by simp)
  rw [ulpExp_of_pos (twoPow_pos k), hfl]
  exact max_le (by omega) hk

/-- Rounding is idempotent on the non-negative rationals. -/
theorem roundDouble_idem {x : ℚ} (hx : 0 ≤ x) : roundDouble (roundDouble x) = roundDouble x := by
  rcases eq_or_lt_of_le hx with h0 | hpos
  · rw [← h0, roundDouble_zero, roundDouble_zero]
  · have hr0 : 0 ≤ roundDouble x := roundDouble_nonneg hx
    rcases eq_or_lt_of_le hr0 with hz | hrpos
    · rw [← hz, roundDouble_zero]
    · have hpx := ulpExp_of_pos hpos
      -- the next power of two that lies on the grid
      have hE : ulpExp x ≤ max (floorLog2 x + 1) (-1022) := by
        rw [hpx]
        rcases max_cases (floorLog2 x - 52) (-1074) with ⟨h, _⟩ | ⟨h, _⟩ <;>
          rcases max_cases (floorLog2 x + 1) (-1022) with ⟨h', _⟩ | ⟨h', _⟩ <;> omega
      have hxE : x ≤ twoPow (max (floorLog2 x + 1) (-1022)) :=
        le_trans (le_of_lt (floorLog2_spec hpos).2) ((twoPow_le_iff _ _).2 (le_max_left _ _))
      have hrE : roundDouble x ≤ twoPow (max (floorLog2 x + 1) (-1022)) :=
        roundHalfEven_div_le hE hxE
      rcases eq_or_lt_of_le hrE with heq | hlt
      · rw [heq]
        exact roundDouble_twoPow (le_trans (by omega) (le_max_right _ _))
      · have hflr := floorLog2_lt hrpos hlt
        apply roundDouble_of_multiple (show roundDouble x
          = ((roundHalfEven (x / twoPow (ulpExp x)) : Int) : ℚ) * twoPow (ulpExp x) from rfl)
        rw [ulpExp_of_pos hrpos, hpx]
        rcases max_cases (floorLog2 x - 52) (-1074) with ⟨h, _⟩ | ⟨h, _⟩ <;>
          rcases max_cases (floorLog2 x + 1) (-1022) with ⟨h', h''⟩ | ⟨h', h''⟩ <;>
          rcases max_cases (floorLog2 (roundDouble x) - 52) (-1074) with ⟨h3, _⟩ | ⟨h3, _⟩ <;>
          omega

/-- A representable value is not passed by rounding a larger sum: the fact behind
`a ≤ a + w` in double arithmetic. -/
theorem le_roundDouble_add {a w : ℚ} (ha : 0 ≤ a) (hw : 0 ≤ w) (hrep : roundDouble a = a) :
    a ≤ roundDouble (a + w) := by
  have := roundDouble_mono ha (show a ≤ a + w by linarith)
  rw [hrep] at this
  exact this

/-- The value of `roundHalfEven` is a nearest integer. -/
theorem roundHalfEven_nearest (y : ℚ) : |(roundHalfEven y : ℚ) - y| ≤ 1 / 2 := by
  have h1 : (⌊y⌋ : ℚ) ≤ y := Int.floor_le y
  have h2 : y < (⌊y⌋ : ℚ) + 1 := Int.lt_floor_add_one y
  unfold roundHalfEven
  rw [abs_le]
  split_ifs with ha hb hc
  · constructor <;> linarith
  · push_cast
    constructor <;> linarith
  · have : y - (⌊y⌋ : ℚ) = 1 / 2 := le_antisymm (not_lt.1 hb) (not_lt.1 ha)
    constructor <;> linarith
  · have : y - (⌊y⌋ : ℚ) = 1 / 2 := le_antisymm (not_lt.1 hb) (not_lt.1 ha)
    push_cast
    constructor <;> linarith

/-- The value of `roundDouble` lies within half a unit in the last place of its argument. -/
theorem roundDouble_error (x : ℚ) : |roundDouble x - x| ≤ twoPow (ulpExp x) / 2 := by
  have hp := twoPow_pos (ulpExp x)
  have h := roundHalfEven_nearest (x / twoPow (ulpExp x))
  have he : roundDouble x - x
      = ((roundHalfEven (x / twoPow (ulpExp x)) : ℚ) - x / twoPow (ulpExp x)) * twoPow (ulpExp x) := by
    unfold roundDouble
    field_simp
  rw [he, abs_mul, abs_of_pos hp]
  calc |(roundHalfEven (x / twoPow (ulpExp x)) : ℚ) - x / twoPow (ulpExp x)| * twoPow (ulpExp x)
      ≤ 1 / 2 * twoPow (ulpExp x) := mul_le_mul_of_nonneg_right h (le_of_lt hp)
    _ = twoPow (ulpExp x) / 2 := by ring

/-- Sample values of `roundDouble`: small integers and `1/2` are kept; `2^53 + 1` lies
half way between two doubles and goes to the even one, `2^53`, `2^53 + 3` goes to
`2^53 + 4`; `2^60 + 1` and `2^60 + 1/2` both go to `2^60`; `1/3` goes to the double
`6004799503160661 / 2^54`. -/
theorem roundDouble_examples :
    roundDouble 5 = 5 ∧ roundDouble (1 / 2) = 1 / 2 ∧
    roundDouble 9007199254740993 = 9007199254740992 ∧
    roundDouble 9007199254740995 = 9007199254740996 ∧
    roundDouble 1152921504606846977 = 1152921504606846976 ∧
    roundDouble (1152921504606846976 + 1 / 2) = 1152921504606846976 ∧
    roundDouble (1 / 3) = 6004799503160661 / 18014398509481984 := by
  decide!

/-! ## Lists, maps and the representation invariant -/

theorem getD_set_eq {α : Type} (l : List α) (i j : Nat) (a d : α) :
    (l.set i a).getD j d = if i = j ∧ i < l.length then a else l.getD j d := by
  simp only [List.getD_eq_getElem?_getD, List.getElem?_set]
  by_cases hij : i = j
  · subst hij
    by_cases hi : i < l.length
    · simp [hi]
    · simp [hi, List.getElem?_eq_none (Nat.le_of_not_lt hi)]
  · simp [hij]

theorem mapFind_some {m : List (Nat × ℚ)} {key : Nat} {e : Nat × ℚ}
    (h : mapFind m key = some e) : e ∈ m ∧ e.1 = key := by
  unfold mapFind at h
  refine ⟨List.mem_of_find?_eq_some h, ?_⟩
  have := List.find?_some h
  simpa using this

theorem mapFind_eq_none {m : List (Nat × ℚ)} {key : Nat} :
    mapFind m key = none ↔ ∀ w, (key, w) ∉ m := by
  unfold mapFind
  rw [List.find?_eq_none]
  constructor
  · intro h w hw
    exact h (key, w) hw (by simp)
  · intro h x hx hp
    have hk : x.1 = key := by simpa using hp
    exact h x.2 (by rw [← hk]; exact hx)

theorem mapFind_of_mem {m : List (Nat × ℚ)} (hnd : (m.map Prod.fst).Nodup) {key : Nat} {w : ℚ}
    (h : (key, w) ∈ m) : mapFind m key = some (key, w) := by
  induction m with
  | nil => simp at h
  | cons x xs ih =>
    rw [List.map_cons, List.nodup_cons] at hnd
    rcases List.mem_cons.1 h with hx | hx
    · subst hx
      simp [mapFind]
    · have hne : x.1 ≠ key := by
        intro hk
        apply hnd.1
        rw [hk]
        exact List.mem_map.2 ⟨(key, w), hx, rfl⟩
      have := ih hnd.2 hx
      unfold mapFind at this ⊢
      rw [List.find?_cons_of_neg _ (by simpa using hne)]
      exact this

theorem mem_mapInsert {m : List (Nat × ℚ)} {e x : Nat × ℚ} :
    x ∈ mapInsert m e ↔ x ∈ m ∨ (x = e ∧ ∀ w, (e.1, w) ∉ m) := by
  unfold mapInsert
  cases hf : mapFind m e.1 with
  | none =>
    have hn := mapFind_eq_none.1 hf
    simp only [List.mem_cons]
    constructor
    · rintro (h | h)
      · exact Or.inr ⟨h, hn⟩
      · exact Or.inl h
    · rintro (h | ⟨h, _⟩)
      · exact Or.inr h
      · exact Or.inl h
  | some y =>
    obtain ⟨hy, hk⟩ := mapFind_some hf
    constructor
    · intro h
      exact Or.inl h
    · rintro (h | ⟨_, hno⟩)
      · exact h
      · exact absurd (by rw [← hk]; exact hy) (hno y.2)

theorem nodup_mapInsert {m : List (Nat × ℚ)} (e : Nat × ℚ) (hnd : (m.map Prod.fst).Nodup) :
    ((mapInsert m e).map Prod.fst).Nodup := by
  unfold mapInsert
  cases hf : mapFind m e.1 with
  | some y => exact hnd
  | none =>
    have hn := mapFind_eq_none.1 hf
    rw [List.map_cons, List.nodup_cons]
    refine ⟨?_, hnd⟩
    intro hmem
    obtain ⟨y, hy, hk⟩ := List.mem_map.1 hmem
    exact hn y.2 (by rw [← hk]; exact hy)

theorem mapInsert_of_mem {m : List (Nat × ℚ)} {e : Nat × ℚ} (h : ∃ w, (e.1, w) ∈ m) :
    mapInsert m e = m := by
  unfold mapInsert
  cases hf : mapFind m e.1 with
  | some y => rfl
  | none =>
    obtain ⟨w, hw⟩ := h
    exact absurd hw (mapFind_eq_none.1 hf w)

theorem mapInsert_of_not_mem {m : List (Nat × ℚ)} {e : Nat × ℚ} (h : ¬ ∃ w, (e.1, w) ∈ m) :
    mapInsert m e = e :: m := by
  unfold mapInsert
  cases hf : mapFind m e.1 with
  | some y =>
    obtain ⟨hy, hk⟩ := mapFind_some hf
    exact absurd ⟨y.2, by rw [← hk]; exact hy⟩ h
  | none => rfl

theorem outArcs_InsertArc (g : WeightedDigraph) (src dst : Nat) (weight : ℚ) (u : Nat) :
    (g.InsertArc src dst weight).outArcs u =
      if src = u ∧ src < g.pathMaps.length then mapInsert (g.outArcs src) (dst, weight)
      else g.outArcs u := by
  unfold outArcs InsertArc
  exact getD_set_eq _ _ _ _ _

theorem row_InsertArc (g : WeightedDigraph) (src dst : Nat) (weight : ℚ) (u : Nat) :
    (g.InsertArc src dst weight).row u =
      if src = u ∧ src < g.boolMatrix.length then (g.row src).set dst true else g.row u := by
  unfold row InsertArc
  exact getD_set_eq _ _ _ _ _

/-- The number of true entries of a row, as `GetOutDegree` computes it. -/
theorem foldl_count (l : List Bool) (k : Nat) :
    l.foldl (fun outDegree elem => if elem then outDegree + 1 else outDegree) k
      = k + l.count true := by
  induction l generalizing k with
  | nil => simp
  | cons b bs ih =>
    rw [List.foldl_cons, ih]
    cases b
    · simp [List.count_cons]
    · simp [List.count_cons]
      omega

theorem GetOutDegree_eq_count (g : WeightedDigraph) (vertex : Nat) :
    g.GetOutDegree vertex = (g.row vertex).count true := by
  unfold GetOutDegree
  rw [foldl_count]
  simp

theorem count_set_true (l : List Bool) (i : Nat) (h : i < l.length) :
    (l.set i true).count true = if l.getD i false then l.count true else l.count true + 1 := by
  induction l generalizing i with
  | nil => simp at h
  | cons b bs ih =>
    cases i with
    | zero => cases b <;> simp [List.count_cons]
    | succ i =>
      have hi : i < bs.length := by simpa using h
      simp only [List.set_cons_succ, List.count_cons, List.getD_cons_succ, ih i hi]
      split
      · rfl
      · omega

theorem wellFormed_initial (n : Nat) : (initial n).WellFormed := by
  have hrow : ∀ u, u < n → (initial n).row u = List.replicate n false := by
    intro u hu
    simp [row, initial, boolVec, List.getD_eq_getElem?_getD, List.getElem?_replicate, hu]
  have hout : ∀ u, (initial n).outArcs u = [] := by
    intro u
    simp only [outArcs, initial, emptyMap, List.getD_eq_getElem?_getD, List.getElem?_replicate]
    split <;> rfl
  refine ⟨by simp [initial], by simp [initial], ?_, ?_, ?_, ?_, ?_⟩
  · intro u hu
    change u < n at hu
    rw [hrow u hu]
    simp [initial]
  · intro u e he
    rw [hout u] at he
    simp at he
  · intro u
    rw [hout u]
    simp
  · intro u v hu hv
    change u < n at hu
    change v < n at hv
    rw [hrow u hu]
    simp [HasArc, hout u, List.getD_eq_getElem?_getD, List.getElem?_replicate, hv]
  · intro u hu
    change u < n at hu
    rw [hrow u hu, hout u]
    simp [List.count_eq_zero]

theorem hasArc_InsertArc {g : WeightedDigraph} (hg : g.WellFormed) {src dst : Nat} (weight : ℚ)
    (hs : src < g.numVertices) (u v : Nat) :
    (g.InsertArc src dst weight).HasArc u v ↔ g.HasArc u v ∨ (u = src ∧ v = dst) := by
  unfold HasArc
  rw [outArcs_InsertArc]
  by_cases hu : src = u
  · subst hu
    rw [if_pos ⟨rfl, by rw [hg.maps_len]; exact hs⟩]
    constructor
    · rintro ⟨w, hw⟩
      rcases mem_mapInsert.1 hw with h | ⟨h, _⟩
      · exact Or.inl ⟨w, h⟩
      · right
        exact ⟨rfl, (Prod.mk.inj h).1⟩
    · rintro (⟨w, hw⟩ | ⟨_, hv⟩)
      · exact ⟨w, mem_mapInsert.2 (Or.inl hw)⟩
      · subst hv
        by_cases hex : ∃ w, (v, w) ∈ g.outArcs src
        · obtain ⟨w, hw⟩ := hex
          exact ⟨w, mem_mapInsert.2 (Or.inl hw)⟩
        · exact ⟨weight, mem_mapInsert.2 (Or.inr ⟨rfl, fun w hw => hex ⟨w, hw⟩⟩)⟩
  · rw [if_neg (fun h => hu h.1)]
    constructor
    · intro h
      exact Or.inl h
    · rintro (h | ⟨h, _⟩)
      · exact h
      · exact absurd h.symm hu

theorem wellFormed_InsertArc {g : WeightedDigraph} (hg : g.WellFormed) {src dst : Nat}
    (weight : ℚ) (hs : src < g.numVertices) (hd : dst < g.numVertices) :
    (g.InsertArc src dst weight).WellFormed := by
  have hsm : src < g.boolMatrix.length := by rw [hg.matrix_len]; exact hs
  have hsp : src < g.pathMaps.length := by rw [hg.maps_len]; exact hs
  have hn : (g.InsertArc src dst weight).numVertices = g.numVertices := rfl
  refine ⟨?_, ?_, ?_, ?_, ?_, ?_, ?_⟩
  · simp [InsertArc, hg.matrix_len]
  · simp [InsertArc, hg.maps_len]
  · intro u hu
    rw [hn] at hu ⊢
    rw [row_InsertArc]
    split
    · rw [List.length_set]
      exact hg.row_len src hs
    · exact hg.row_len u hu
  · intro u e he
    rw [hn]
    rw [outArcs_InsertArc] at he
    split at he
    · rcases mem_mapInsert.1 he with h | ⟨h, _⟩
      · exact hg.keys_lt src e h
      · rw [h]
        exact hd
    · exact hg.keys_lt u e he
  · intro u
    rw [outArcs_InsertArc]
    split
    · exact nodup_mapInsert _ (hg.keys_nodup src)
    · exact hg.keys_nodup u
  · intro u v hu hv
    rw [hn] at hu hv
    rw [hasArc_InsertArc hg weight hs, row_InsertArc, ← hg.matrix_iff u v hu hv]
    by_cases hsu : src = u
    · subst hsu
      rw [if_pos ⟨rfl, hsm⟩, getD_set_eq]
      by_cases hdv : dst = v
      · subst hdv
        simp [hg.row_len src hs, hd]
      · have hvd : ¬ v = dst := fun h => hdv h.symm
        simp [hdv, hvd]
    · have hus : ¬ u = src := fun h => hsu h.symm
      rw [if_neg (fun h => hsu h.1)]
      simp [hus]
  · intro u hu
    rw [hn] at hu
    rw [row_InsertArc, outArcs_InsertArc]
    by_cases hsu : src = u
    · subst hsu
      rw [if_pos ⟨rfl, hsm⟩, if_pos ⟨rfl, hsp⟩,
        count_set_true _ _ (by rw [hg.row_len src hs]; exact hd), hg.degree_eq src hs]
      have := hg.matrix_iff src dst hs hd
      unfold HasArc at this
      by_cases hex : ∃ w, (dst, w) ∈ g.outArcs src
      · rw [mapInsert_of_mem hex, if_pos (this.2 hex)]
      · rw [mapInsert_of_not_mem hex, if_neg (fun hb => hex (this.1 hb))]
        rfl
    · rw [if_neg (fun h => hsu h.1), if_neg (fun h => hsu h.1)]
      exact hg.degree_eq u hu

theorem construct_snoc (n : Nat) (arcs : List (Nat × Nat × ℚ)) (a : Nat × Nat × ℚ) :
    construct n (arcs ++ [a]) = (construct n arcs).InsertArc a.1 a.2.1 a.2.2 := by
  simp [construct, List.foldl_append]

theorem numVertices_construct (n : Nat) (arcs : List (Nat × Nat × ℚ)) :
    (construct n arcs).numVertices = n := by
  induction arcs using List.reverseRecOn with
  | nil => rfl
  | append_singleton l a ih =>
    rw [construct_snoc]
    exact ih

theorem inRange_append {n : Nat} {l : List (Nat × Nat × ℚ)} {a : Nat × Nat × ℚ}
    (h : InRange n (l ++ [a])) : InRange n l ∧ a.1 < n ∧ a.2.1 < n := by
  refine ⟨fun x hx => h x (List.mem_append_left _ hx), h a (by simp)⟩

theorem wellFormed_construct {n : Nat} {arcs : List (Nat × Nat × ℚ)} (h : InRange n arcs) :
    (construct n arcs).WellFormed := by
  induction arcs using List.reverseRecOn with
  | nil => exact wellFormed_initial n
  | append_singleton l a ih =>
    obtain ⟨hl, ha1, ha2⟩ := inRange_append h
    rw [construct_snoc]
    exact wellFormed_InsertArc (ih hl) a.2.2
      (by rw [numVertices_construct]; exact ha1) (by rw [numVertices_construct]; exact ha2)

theorem hasArc_construct {n : Nat} {arcs : List (Nat × Nat × ℚ)} (h : InRange n arcs)
    (u v : Nat) : (construct n arcs).HasArc u v ↔ ∃ w, (u, v, w) ∈ arcs := by
  induction arcs using List.reverseRecOn with
  | nil =>
    have hout : (initial n).outArcs u = [] := by
      simp only [outArcs, initial, emptyMap, List.getD_eq_getElem?_getD,
        List.getElem?_replicate]
      split <;> rfl
    simp [construct, HasArc, hout]
  | append_singleton l a ih =>
    obtain ⟨hl, ha1, ha2⟩ := inRange_append h
    rw [construct_snoc, hasArc_InsertArc (wellFormed_construct hl) a.2.2
      (by rw [numVertices_construct]; exact ha1), ih hl]
    constructor
    · rintro (⟨w, hw⟩ | ⟨h1, h2⟩)
      · exact ⟨w, List.mem_append_left _ hw⟩
      · exact ⟨a.2.2, by rw [h1, h2]; simp⟩
    · rintro ⟨w, hw⟩
      rcases List.mem_append.1 hw with hw | hw
      · exact Or.inl ⟨w, hw⟩
      · right
        have : (u, v, w) = a := by simpa using hw
        rw [← this]
        exact ⟨rfl, rfl⟩

theorem mapFind_mapInsert (m : List (Nat × ℚ)) (e : Nat × ℚ) (key : Nat) :
    mapFind (mapInsert m e) key =
      match mapFind m key with
      | some x => some x
      | none => if e.1 = key then some e else none := by
  by_cases hex : ∃ w, (e.1, w) ∈ m
  · rw [mapInsert_of_mem hex]
    cases hf : mapFind m key with
    | some x => rfl
    | none =>
      obtain ⟨w, hw⟩ := hex
      have hne : ¬ e.1 = key := fun hk => mapFind_eq_none.1 hf w (by rw [← hk]; exact hw)
      simp [hne]
  · rw [mapInsert_of_not_mem hex]
    by_cases hk : e.1 = key
    · have hn : mapFind m key = none :=
        mapFind_eq_none.2 (fun w hw => hex ⟨w, by rw [hk]; exact hw⟩)
      rw [hn]
      simp [mapFind, hk]
    · have : mapFind (e :: m) key = mapFind m key := by
        unfold mapFind
        rw [List.find?_cons_of_neg _ (by simpa using hk)]
      rw [this]
      cases mapFind m key <;> simp [hk]

/-- The entry found for `dst` in the out-arc map of `src` comes from the first input
triple with that source and destination. -/
theorem mapFind_construct {n : Nat} {arcs : List (Nat × Nat × ℚ)} (h : InRange n arcs)
    (src dst : Nat) :
    mapFind ((construct n arcs).outArcs src) dst =
      (arcs.find? (fun a => a.1 == src && a.2.1 == dst)).map (fun a => (a.2.1, a.2.2)) := by
  induction arcs using List.reverseRecOn with
  | nil =>
    have hout : (initial n).outArcs src = [] := by
      simp only [outArcs, initial, emptyMap, List.getD_eq_getElem?_getD,
        List.getElem?_replicate]
      split <;> rfl
    simp [construct, hout, mapFind]
  | append_singleton l a ih =>
    obtain ⟨hl, ha1, ha2⟩ := inRange_append h
    have hlen : a.1 < (construct n l).pathMaps.length := by
      rw [(wellFormed_construct hl).maps_len, numVertices_construct]
      exact ha1
    rw [construct_snoc, outArcs_InsertArc, List.find?_append]
    by_cases hs : a.1 = src
    · rw [if_pos ⟨hs, hlen⟩, mapFind_mapInsert, hs, ih hl]
      cases hfl : l.find? (fun a => a.1 == src && a.2.1 == dst) with
      | some x => simp
      | none =>
        by_cases hd : a.2.1 = dst
        · simp [hs, hd]
          exact Prod.ext hd.symm rfl
        · simp [hs, hd]
    · rw [if_neg (fun hh => hs hh.1), ih hl]
      cases hfl : l.find? (fun a => a.1 == src && a.2.1 == dst) with
      | some x => simp
      | none => simp [hs]

theorem find?_first {pre post : List (Nat × Nat × ℚ)} {src dst : Nat} {w : ℚ}
    (hpre : ∀ a ∈ pre, ¬ (a.1 = src ∧ a.2.1 = dst)) :
    (pre ++ (src, dst, w) :: post).find? (fun a => a.1 == src && a.2.1 == dst)
      = some (src, dst, w) := by
  rw [List.find?_append]
  have : pre.find? (fun a => a.1 == src && a.2.1 == dst) = none := by
    rw [List.find?_eq_none]
    intro x hx
    simpa using hpre x hx
  rw [this]
  simp

theorem GetArcWeight_of_mapFind {g : WeightedDigraph} (hg : g.WellFormed) {src dst : Nat}
    (hs : src < g.numVertices) (hd : dst < g.numVertices) {e : Nat × ℚ}
    (h : mapFind (g.outArcs src) dst = some e) :
    g.GetArcWeight src dst = some (Weight.fin e.2) := by
  obtain ⟨he, hk⟩ := mapFind_some h
  have hrow : (g.row src).getD dst false = true :=
    (hg.matrix_iff src dst hs hd).2 ⟨e.2, by rw [← hk]; exact he⟩
  unfold GetArcWeight
  rw [if_pos hrow, h]

theorem GetArcWeight_of_not_hasArc {g : WeightedDigraph} (hg : g.WellFormed) {src dst : Nat}
    (hs : src < g.numVertices) (hd : dst < g.numVertices) (h : ¬ g.HasArc src dst) :
    g.GetArcWeight src dst = some Weight.inf := by
  have hrow : ¬ (g.row src).getD dst false = true :=
    fun hb => h ((hg.matrix_iff src dst hs hd).1 hb)
  unfold GetArcWeight
  rw [if_neg hrow]

/-! ## Construction and local queries -/

/-- C4: on a graph built from in-range triples, `GetArcWeight(from, to)` returns the
weight stored for the arc `from → to` (a weight that was inserted for this pair)
when some triple for the pair was inserted, and positive infinity when none was. -/
theorem GetArcWeight_spec (n : Nat) (arcs : List (Nat × Nat × ℚ)) (src dst : Nat)
    (h : InRange n arcs) (hs : src < n) (hd : dst < n) :
    ((∃ w, (src, dst, w) ∈ arcs) →
      ∃ w, (src, dst, w) ∈ arcs ∧ (construct n arcs).storedWeight src dst = some w ∧
        (construct n arcs).GetArcWeight src dst = some (Weight.fin w)) ∧
    ((¬ ∃ w, (src, dst, w) ∈ arcs) →
      (construct n arcs).GetArcWeight src dst = some Weight.inf) := by
  have hg := wellFormed_construct h
  have hs1 : src < (construct n arcs).numVertices := by rw [numVertices_construct]; exact hs
  have hd1 : dst < (construct n arcs).numVertices := by rw [numVertices_construct]; exact hd
  constructor
  · intro hex
    obtain ⟨w0, hw0⟩ := (hasArc_construct h src dst).2 hex
    have hf := mapFind_of_mem (hg.keys_nodup src) hw0
    obtain ⟨w1, hw1⟩ := (hasArc_construct h src dst).2 hex
    refine ⟨w0, ?_, ?_, ?_⟩
    · have hc := mapFind_construct h src dst
      rw [hf] at hc
      cases hfl : arcs.find? (fun a => a.1 == src && a.2.1 == dst) with
      | none => simp [hfl] at hc
      | some x =>
        rw [hfl] at hc
        have hx := List.mem_of_find?_eq_some hfl
        have hp := List.find?_some hfl
        simp only [Bool.and_eq_true, beq_iff_eq] at hp
        obtain ⟨x1, x2, x3⟩ := x
        have hc1 : dst = x2 ∧ w0 = x3 := by simpa using hc
        have hp1 : x1 = src := hp.1
        rw [← hp1, hc1.1, hc1.2]
        exact hx
    · simp [storedWeight, hf]
    · exact GetArcWeight_of_mapFind hg hs1 hd1 hf
  · intro hex
    exact GetArcWeight_of_not_hasArc hg hs1 hd1 (fun ha => hex ((hasArc_construct h src dst).1 ha))

/-- A witness for C4: the triangle example at the pair `(0, 2)`. -/
theorem GetArcWeight_spec_witness :
    InRange 3 [(0, 1, 1), (0, 2, 4), (1, 2, 1)] ∧ 0 < 3 ∧ 2 < 3 ∧
    (((∃ w, ((0 : Nat), (2 : Nat), w) ∈ [((0 : Nat), (1 : Nat), (1 : ℚ)), (0, 2, 4), (1, 2, 1)]) →
      ∃ w, ((0 : Nat), (2 : Nat), w) ∈ [((0 : Nat), (1 : Nat), (1 : ℚ)), (0, 2, 4), (1, 2, 1)] ∧
        (construct 3 [(0, 1, 1), (0, 2, 4), (1, 2, 1)]).storedWeight 0 2 = some w ∧
        (construct 3 [(0, 1, 1), (0, 2, 4), (1, 2, 1)]).GetArcWeight 0 2 = some (Weight.fin w)) ∧
    ((¬ ∃ w, ((0 : Nat), (2 : Nat), w) ∈ [((0 : Nat), (1 : Nat), (1 : ℚ)), (0, 2, 4), (1, 2, 1)]) →
      (construct 3 [(0, 1, 1), (0, 2, 4), (1, 2, 1)]).GetArcWeight 0 2 = some Weight.inf)) :=
  ⟨by simp [InRange], by decide, by decide,
    GetArcWeight_spec 3 [(0, 1, 1), (0, 2, 4), (1, 2, 1)] 0 2 (by simp [InRange])
      (by decide) (by decide)⟩

/-- C5: duplicate insertion is first-wins.  When the input is `pre`, then the triple
`(from, to, w)`, then `post`, and no triple of `pre` has source `from` and
destination `to`, `GetArcWeight(from, to)` is `w` whatever `post` contains. -/
theorem GetArcWeight_first_wins (n : Nat) (pre post : List (Nat × Nat × ℚ)) (src dst : Nat)
    (w : ℚ) (h : InRange n (pre ++ (src, dst, w) :: post))
    (hpre : ∀ a ∈ pre, ¬ (a.1 = src ∧ a.2.1 = dst)) :
    (construct n (pre ++ (src, dst, w) :: post)).GetArcWeight src dst = some (Weight.fin w) := by
  have hg := wellFormed_construct h
  have hin := h (src, dst, w) (by simp)
  have hf := mapFind_construct h src dst
  rw [find?_first hpre] at hf
  exact GetArcWeight_of_mapFind hg (by rw [numVertices_construct]; exact hin.1)
    (by rw [numVertices_construct]; exact hin.2) hf

/-- A witness for C5: inserting `0→1 (w=5)` then `0→1 (w=9)` leaves weight `5`. -/
theorem GetArcWeight_first_wins_witness :
    InRange 2 ([] ++ ((0 : Nat), (1 : Nat), (5 : ℚ)) :: [(0, 1, 9)]) ∧
    (∀ a ∈ ([] : List (Nat × Nat × ℚ)), ¬ (a.1 = 0 ∧ a.2.1 = 1)) ∧
    (construct 2 ([] ++ ((0 : Nat), (1 : Nat), (5 : ℚ)) :: [(0, 1, 9)])).GetArcWeight 0 1
      = some (Weight.fin 5) :=
  ⟨by simp [InRange], by simp,
    GetArcWeight_first_wins 2 [] [(0, 1, 9)] 0 1 5 (by simp [InRange]) (by simp)⟩

/-- C6: the arc counter counts insertion attempts.  Every `InsertArc` call raises
`numArcs` by exactly one, and after construction from a list of triples `numArcs`
is the length of the list, repeated pairs included. -/
theorem numArcs_counts_insertions (n : Nat) (arcs : List (Nat × Nat × ℚ)) :
    (construct n arcs).numArcs = arcs.length ∧
    ∀ (g : WeightedDigraph) (src dst : Nat) (weight : ℚ),
      (g.InsertArc src dst weight).numArcs = g.numArcs + 1 := by
  refine ⟨?_, fun g src dst weight => rfl⟩
  induction arcs using List.reverseRecOn with
  | nil => rfl
  | append_singleton l a ih =>
    rw [construct_snoc, List.length_append]
    change (construct n l).numArcs + 1 = _
    rw [ih]
    rfl

/-- C7: on a graph built from in-range triples, `GetOutDegree(v)` is the number of
entries of the out-arc map of `v`, which is the number of distinct destinations
among the inserted triples with source `v`. -/
theorem GetOutDegree_spec (n : Nat) (arcs : List (Nat × Nat × ℚ)) (v : Nat)
    (h : InRange n arcs) (hv : v < n) :
    (construct n arcs).GetOutDegree v = ((construct n arcs).outArcs v).length ∧
    (construct n arcs).GetOutDegree v = distinctDestinations arcs v := by
  have hg := wellFormed_construct h
  have hv1 : v < (construct n arcs).numVertices := by rw [numVertices_construct]; exact hv
  have h1 : (construct n arcs).GetOutDegree v = ((construct n arcs).outArcs v).length := by
    rw [GetOutDegree_eq_count, hg.degree_eq v hv1]
  refine ⟨h1, ?_⟩
  rw [h1, distinctDestinations, ← List.card_toFinset, ← List.length_map _ Prod.fst,
    ← List.toFinset_card_of_nodup (hg.keys_nodup v)]
  congr 1
  ext d
  simp only [List.mem_toFinset, List.mem_map, List.mem_filter, beq_iff_eq]
  constructor
  · rintro ⟨e, he, hk⟩
    obtain ⟨w, hw⟩ := (hasArc_construct h v d).1 ⟨e.2, by rw [← hk]; exact he⟩
    exact ⟨(v, d, w), ⟨hw, rfl⟩, rfl⟩
  · rintro ⟨a, ⟨ha, ha1⟩, ha2⟩
    obtain ⟨w, hw⟩ := (hasArc_construct h v d).2 ⟨a.2.2, by rw [← ha1, ← ha2]; exact ha⟩
    exact ⟨(d, w), hw, rfl⟩

/-- A witness for C7: vertex `0` of the triangle example. -/
theorem GetOutDegree_spec_witness :
    InRange 3 [(0, 1, 1), (0, 2, 4), (1, 2, 1)] ∧ 0 < 3 ∧
    ((construct 3 [(0, 1, 1), (0, 2, 4), (1, 2, 1)]).GetOutDegree 0
        = ((construct 3 [(0, 1, 1), (0, 2, 4), (1, 2, 1)]).outArcs 0).length ∧
      (construct 3 [(0, 1, 1), (0, 2, 4), (1, 2, 1)]).GetOutDegree 0
        = distinctDestinations [(0, 1, 1), (0, 2, 4), (1, 2, 1)] 0) :=
  ⟨by simp [InRange], by decide,
    GetOutDegree_spec 3 [(0, 1, 1), (0, 2, 4), (1, 2, 1)] 0 (by simp [InRange]) (by decide)⟩

/-- C8: `AreConnected(from, to)` is true exactly when a direct arc `from → to` is
stored or `from = to`; so it is true on every pair `(v, v)`, and false for distinct
vertices without a direct arc, whatever longer paths join them. -/
theorem AreConnected_spec (g : WeightedDigraph) (src dst : Nat) (hg : g.WellFormed)
    (hs : src < g.numVertices) (hd : dst < g.numVertices) :
    (g.AreConnected src dst = true ↔ (g.HasArc src dst ∨ src = dst)) ∧
    g.AreConnected src src = true := by
  have key : ∀ a b, g.AreConnected a b = true ↔ (g.HasArc a b ∨ a = b) := by
    intro a b
    unfold AreConnected
    cases hf : mapFind (g.outArcs a) b with
    | some e =>
      obtain ⟨he, hk⟩ := mapFind_some hf
      have : g.HasArc a b := ⟨e.2, by rw [← hk]; exact he⟩
      simp [this]
    | none =>
      have hn : ¬ g.HasArc a b := fun ⟨w, hw⟩ => mapFind_eq_none.1 hf w hw
      by_cases hab : a = b
      · simp [hab]
      · simp [hab, hn]
  exact ⟨key src dst, (key src src).2 (Or.inr rfl)⟩

/-- A witness for C8: the pair `(0, 2)` of the chain `0→1`, `1→2`. -/
theorem AreConnected_spec_witness :
    chain.WellFormed ∧ 0 < chain.numVertices ∧ 2 < chain.numVertices ∧
    ((chain.AreConnected 0 2 = true ↔ (chain.HasArc 0 2 ∨ 0 = 2)) ∧
      chain.AreConnected 0 0 = true) :=
  ⟨wellFormed_construct (by simp [InRange]), by decide, by decide,
    AreConnected_spec chain 0 2 (wellFormed_construct (by simp [InRange]))
      (by decide) (by decide)⟩

/-! ## Reachability: `DoesPathExist` -/

theorem count_false_set (l : List Bool) (i : Nat) (h : i < l.length)
    (hf : l.getD i false = false) :
    (l.set i true).count false + 1 = l.count false := by
  induction l generalizing i with
  | nil => simp at h
  | cons b bs ih =>
    cases i with
    | zero =>
      have hb : b = false := by simpa using hf
      subst hb
      simp [List.count_cons]
    | succ i =>
      have hi : i < bs.length := by simpa using h
      have hf1 : bs.getD i false = false := by simpa using hf
      have := ih i hi hf1
      simp only [List.set_cons_succ, List.count_cons]
      omega

theorem getD_lt_of_true {l : List Bool} {i : Nat} (h : l.getD i false = true) : i < l.length := by
  by_contra hn
  rw [List.getD_eq_getElem?_getD, List.getElem?_eq_none (Nat.le_of_not_lt hn)] at h
  simp at h

/-- The body of the `for` loop when the three early exits do not fire. -/
theorem doesPathExistFor_cons {g : WeightedDigraph} {src dst : Nat}
    (h1 : mapFind (g.outArcs src) dst = none) (h2 : src ≠ dst)
    (h3 : (g.outArcs src).length ≠ 0) (iter : Nat × ℚ) (rest : List (Nat × ℚ))
    (visited : List Bool) (queue : List Nat) :
    doesPathExistFor g src dst (iter :: rest) visited queue =
      if visited.getD iter.1 false = true then doesPathExistFor g src dst rest visited queue
      else if iter.1 = dst then Sum.inl true
      else doesPathExistFor g src dst rest (visited.set iter.1 true) (queue ++ [iter.1]) := by
  rw [doesPathExistFor, h1]
  simp only [if_neg h2, if_neg h3]
  cases hv : visited.getD iter.1 false <;> simp

theorem doesPathExistFor_spec {g : WeightedDigraph} (hg : g.WellFormed) {src dst : Nat}
    (h1 : mapFind (g.outArcs src) dst = none) (h2 : src ≠ dst)
    (h3 : (g.outArcs src).length ≠ 0) (startNode : Nat) (arcs : List (Nat × ℚ))
    (harcs : ∀ e, e ∈ arcs → e ∈ g.outArcs startNode) :
    ∀ (visited : List Bool) (queue : List Nat),
      visited.getD startNode false = true →
      BfsInv g src dst (fun x y => x = startNode ∧ ∃ w, (y, w) ∈ arcs) visited queue →
      (doesPathExistFor g src dst arcs visited queue = Sum.inl true ∧ g.Reachable src dst) ∨
      ∃ visited1 queue1,
        doesPathExistFor g src dst arcs visited queue = Sum.inr (visited1, queue1) ∧
        BfsInv g src dst (fun _ _ => False) visited1 queue1 ∧
        visited1.count false + queue1.length ≤ visited.count false + queue.length := by
  induction arcs with
  | nil =>
    intro visited queue _ inv
    right
    refine ⟨visited, queue, rfl, ⟨inv.len, inv.queued, inv.target, inv.sound, inv.start, ?_⟩,
      le_refl _⟩
    intro x y hx hxy
    rcases inv.closed x y hx hxy with h | h | ⟨_, w, hw⟩
    · exact Or.inl h
    · exact Or.inr (Or.inl h)
    · simp at hw
  | cons iter rest ih =>
    intro visited queue hstart inv
    have hrest : ∀ e, e ∈ rest → e ∈ g.outArcs startNode :=
      fun e he => harcs e (List.mem_cons_of_mem _ he)
    have hiter : (iter.1, iter.2) ∈ g.outArcs startNode := harcs iter (List.mem_cons_self _ _)
    rw [doesPathExistFor_cons h1 h2 h3]
    by_cases hv : visited.getD iter.1 false = true
    · rw [if_pos hv]
      apply ih hrest visited queue hstart
      refine ⟨inv.len, inv.queued, inv.target, inv.sound, inv.start, ?_⟩
      intro x y hx hxy
      rcases inv.closed x y hx hxy with h | h | ⟨hxs, w, hw⟩
      · exact Or.inl h
      · exact Or.inr (Or.inl h)
      · rcases List.mem_cons.1 hw with hw | hw
        · have : y = iter.1 := by rw [← hw]
          rw [this]
          exact Or.inr (Or.inl hv)
        · exact Or.inr (Or.inr ⟨hxs, w, hw⟩)
    · rw [if_neg hv]
      have hreach : g.Reachable src iter.1 :=
        Relation.ReflTransGen.tail (inv.sound startNode hstart) ⟨iter.2, hiter⟩
      by_cases hd : iter.1 = dst
      · rw [if_pos hd]
        left
        exact ⟨rfl, hd ▸ hreach⟩
      · rw [if_neg hd]
        have hlt : iter.1 < visited.length := by
          rw [inv.len]
          exact hg.keys_lt startNode _ hiter
        have hvf : visited.getD iter.1 false = false := by
          cases hb : visited.getD iter.1 false with
          | false => rfl
          | true => exact absurd hb hv
        have hget : ∀ x, (visited.set iter.1 true).getD x false = true ↔
            (x = iter.1 ∨ visited.getD x false = true) := by
          intro x
          rw [getD_set_eq]
          by_cases hx : iter.1 = x
          · subst hx
            simp [hlt]
          · have hx1 : ¬ x = iter.1 := fun h => hx h.symm
            simp [hx, hx1]
        have hinv : BfsInv g src dst (fun x y => x = startNode ∧ ∃ w, (y, w) ∈ rest)
            (visited.set iter.1 true) (queue ++ [iter.1]) := by
          refine ⟨by rw [List.length_set]; exact inv.len, ?_, ?_, ?_, ?_, ?_⟩
          · intro x hx
            rw [hget]
            rcases List.mem_append.1 hx with hx | hx
            · exact Or.inr (inv.queued x hx)
            · exact Or.inl (by simpa using hx)
          · cases hb : (visited.set iter.1 true).getD dst false with
            | false => rfl
            | true =>
              rcases (hget dst).1 hb with h | h
              · exact absurd h.symm hd
              · rw [inv.target] at h
                exact absurd h (by simp)
          · intro x hx
            rcases (hget x).1 hx with h | h
            · rw [h]
              exact hreach
            · exact inv.sound x h
          · exact (hget src).2 (Or.inr inv.start)
          · intro x y hx hxy
            rcases (hget x).1 hx with h | h
            · left
              rw [h]
              simp
            · rcases inv.closed x y h hxy with h' | h' | ⟨hxs, w, hw⟩
              · exact Or.inl (List.mem_append_left _ h')
              · exact Or.inr (Or.inl ((hget y).2 (Or.inr h')))
              · rcases List.mem_cons.1 hw with hw | hw
                · have : y = iter.1 := by rw [← hw]
                  exact Or.inr (Or.inl ((hget y).2 (Or.inl this)))
                · exact Or.inr (Or.inr ⟨hxs, w, hw⟩)
        have hstart1 : (visited.set iter.1 true).getD startNode false = true :=
          (hget startNode).2 (Or.inr hstart)
        rcases ih hrest _ _ hstart1 hinv with h | ⟨v1, q1, he, hi, hm⟩
        · exact Or.inl h
        · right
          refine ⟨v1, q1, he, hi, ?_⟩
          have hc := count_false_set visited iter.1 hlt hvf
          rw [List.length_append, List.length_singleton] at hm
          omega

theorem doesPathExistWhile_spec {g : WeightedDigraph} (hg : g.WellFormed) {src dst : Nat}
    (h1 : mapFind (g.outArcs src) dst = none) (h2 : src ≠ dst)
    (h3 : (g.outArcs src).length ≠ 0) :
    ∀ (fuel : Nat) (visited : List Bool) (queue : List Nat),
      BfsInv g src dst (fun _ _ => False) visited queue →
      visited.count false + queue.length ≤ fuel →
      (doesPathExistWhile g src dst fuel visited queue = some true ∧ g.Reachable src dst) ∨
      (doesPathExistWhile g src dst fuel visited queue = some false ∧ ¬ g.Reachable src dst) := by
  intro fuel
  induction fuel with
  | zero =>
    intro visited queue inv hm
    cases queue with
    | cons x xs => simp at hm
    | nil =>
      right
      refine ⟨by simp [doesPathExistWhile], ?_⟩
      intro hr
      have hall : ∀ x, g.Reachable src x → visited.getD x false = true := by
        intro x hx
        induction hx with
        | refl => exact inv.start
        | tail _ hbc ihb =>
          rcases inv.closed _ _ ihb hbc with h | h | h
          · simp at h
          · exact h
          · exact absurd h id
      have := hall dst hr
      rw [inv.target] at this
      exact absurd this (by simp)
  | succ fuel ih =>
    intro visited queue inv hm
    cases queue with
    | nil =>
      right
      refine ⟨by simp [doesPathExistWhile], ?_⟩
      intro hr
      have hall : ∀ x, g.Reachable src x → visited.getD x false = true := by
        intro x hx
        induction hx with
        | refl => exact inv.start
        | tail _ hbc ihb =>
          rcases inv.closed _ _ ihb hbc with h | h | h
          · simp at h
          · exact h
          · exact absurd h id
      have := hall dst hr
      rw [inv.target] at this
      exact absurd this (by simp)
    | cons startNode queue =>
      have hstart : visited.getD startNode false = true :=
        inv.queued startNode (List.mem_cons_self _ _)
      have hinv : BfsInv g src dst (fun x y => x = startNode ∧ ∃ w, (y, w) ∈ g.outArcs startNode)
          visited queue := by
        refine ⟨inv.len, fun x hx => inv.queued x (List.mem_cons_of_mem _ hx), inv.target,
          inv.sound, inv.start, ?_⟩
        intro x y hx hxy
        rcases inv.closed x y hx hxy with h | h | h
        · rcases List.mem_cons.1 h with h | h
          · exact Or.inr (Or.inr ⟨h, by rw [← h]; exact hxy⟩)
          · exact Or.inl h
        · exact Or.inr (Or.inl h)
        · exact absurd h id
      rw [doesPathExistWhile]
      rcases doesPathExistFor_spec hg h1 h2 h3 startNode (g.outArcs startNode) (fun _ he => he)
        visited queue hstart hinv with ⟨he, hr⟩ | ⟨v1, q1, he, hi, hm1⟩
      · rw [he]
        exact Or.inl ⟨rfl, hr⟩
      · rw [he]
        apply ih v1 q1 hi
        rw [List.length_cons] at hm
        omega

theorem getD_replicate_false (n x : Nat) : (List.replicate n false).getD x false = false := by
  rw [List.getD_eq_getElem?_getD, List.getElem?_replicate]
  split <;> rfl

theorem getD_initial_visited {n src : Nat} (hs : src < n) (x : Nat) :
    ((List.replicate n false).set src true).getD x false = true ↔ x = src := by
  rw [getD_set_eq]
  by_cases hx : src = x
  · subst hx
    simp [hs]
  · have hx1 : ¬ x = src := fun h => hx h.symm
    simp [hx, hx1, getD_replicate_false]

theorem reachable_of_no_arcs {g : WeightedDigraph} {src dst : Nat}
    (h : g.outArcs src = []) (hr : g.Reachable src dst) : src = dst := by
  rcases Relation.ReflTransGen.cases_head hr with h0 | ⟨y, ⟨w, hw⟩, _⟩
  · exact h0
  · rw [h] at hw
    simp at hw

/-- What `DoesPathExist` returns, for every well-formed graph, once the fuel covers
one dequeue per vertex. -/
theorem DoesPathExist_eq {g : WeightedDigraph} (hg : g.WellFormed) {src dst : Nat}
    (hs : src < g.numVertices) {fuel : Nat} (hfuel : g.numVertices ≤ fuel) :
    ∃ b, DoesPathExist fuel g src dst = some b ∧
      (src ≠ dst → (b = true ↔ g.Reachable src dst)) ∧
      (src = dst → (b = true ↔ g.HasArc src dst)) := by
  obtain ⟨f, rfl⟩ : ∃ f, fuel = f + 1 := ⟨fuel - 1, by omega⟩
  unfold DoesPathExist
  rw [doesPathExistWhile]
  cases hf : mapFind (g.outArcs src) dst with
  | some e =>
    obtain ⟨he, hk⟩ := mapFind_some hf
    have harc : g.HasArc src dst := ⟨e.2, by rw [← hk]; exact he⟩
    have hfor : ∀ v q, doesPathExistFor g src dst (g.outArcs src) v q = Sum.inl true := by
      intro v q
      cases hout : g.outArcs src with
      | nil => rw [hout] at he; simp at he
      | cons iter rest => rw [doesPathExistFor, hf]
    rw [hfor]
    exact ⟨true, rfl, fun _ => ⟨fun _ => Relation.ReflTransGen.single harc, fun _ => rfl⟩,
      fun _ => ⟨fun _ => harc, fun _ => rfl⟩⟩
  | none =>
    have hnarc : ¬ g.HasArc src dst := fun ⟨w, hw⟩ => mapFind_eq_none.1 hf w hw
    cases hout : g.outArcs src with
    | nil =>
      refine ⟨false, by simp [doesPathExistFor, doesPathExistWhile], ?_, ?_⟩
      · intro hne
        constructor
        · intro h
          exact absurd h (by simp)
        · intro hr
          exact absurd (reachable_of_no_arcs hout hr) hne
      · intro _
        constructor
        · intro h
          exact absurd h (by simp)
        · intro h
          exact absurd h hnarc
    | cons iter rest =>
      have h3 : (g.outArcs src).length ≠ 0 := by rw [hout]; simp
      by_cases hsd : src = dst
      · have hfor : ∀ v q, doesPathExistFor g src dst (iter :: rest) v q = Sum.inl false := by
          intro v q
          rw [doesPathExistFor, hf]
          simp [hsd]
        rw [hfor]
        refine ⟨false, rfl, fun hne => absurd hsd hne, fun _ => ?_⟩
        constructor
        · intro h
          exact absurd h (by simp)
        · intro h
          exact absurd h hnarc
      · rw [← hout]
        have hinv : BfsInv g src dst (fun _ _ => False)
            ((List.replicate g.numVertices false).set src true) [src] := by
          refine ⟨by simp, ?_, ?_, ?_, ?_, ?_⟩
          · intro x hx
            rw [getD_initial_visited hs]
            simpa using hx
          · cases hb : ((List.replicate g.numVertices false).set src true).getD dst false with
            | false => rfl
            | true => exact absurd ((getD_initial_visited hs dst).1 hb).symm hsd
          · intro x hx
            rw [(getD_initial_visited hs x).1 hx]
            exact Relation.ReflTransGen.refl
          · exact (getD_initial_visited hs src).2 rfl
          · intro x y hx _
            left
            rw [(getD_initial_visited hs x).1 hx]
            simp
        have hcount : ((List.replicate g.numVertices false).set src true).count false + 1
            = g.numVertices := by
          rw [count_false_set _ _ (by simpa using hs) (getD_replicate_false _ _)]
          simp
        have hw := doesPathExistWhile_spec hg hf hsd h3 (f + 1) _ _ hinv
          (by rw [List.length_singleton]; omega)
        rw [doesPathExistWhile] at hw
        rcases hw with ⟨he, hr⟩ | ⟨he, hr⟩
        · exact ⟨true, he, fun _ => ⟨fun _ => hr, fun _ => rfl⟩, fun h => absurd h hsd⟩
        · exact ⟨false, he, fun _ => ⟨fun h => absurd h (by simp), fun h => absurd h hr⟩,
            fun h => absurd h hsd⟩

/-- C3, refuted as stated: on the chain `0→1`, `1→2` vertex `0` is reachable from itself
by zero arcs, yet `DoesPathExist(0, 0)` returns false. -/
theorem DoesPathExist_self_false :
    DoesPathExist 3 chain 0 0 = some false ∧ chain.Reachable 0 0 :=
  ⟨by decide!, Relation.ReflTransGen.refl⟩

/-- C3, amended: for distinct in-range vertices `DoesPathExist(from, to)` returns true
exactly when `to` is reachable from `from` (for distinct vertices zero-or-more and
one-or-more arcs agree); for `from = to` it returns true exactly when the self-loop
`from → from` is stored. -/
theorem DoesPathExist_spec (g : WeightedDigraph) (src dst fuel : Nat) (hg : g.WellFormed)
    (hs : src < g.numVertices) (hd : dst < g.numVertices) (hfuel : g.numVertices ≤ fuel) :
    ∃ b, DoesPathExist fuel g src dst = some b ∧
      (src ≠ dst → (b = true ↔ g.Reachable src dst)) ∧
      (src = dst → (b = true ↔ g.HasArc src dst)) :=
  DoesPathExist_eq hg hs hfuel

/-- A witness for C3 as amended: the pair `(0, 2)` of the chain `0→1`, `1→2`. -/
theorem DoesPathExist_spec_witness :
    chain.WellFormed ∧ 0 < chain.numVertices ∧ 2 < chain.numVertices ∧
    chain.numVertices ≤ 3 ∧
    ∃ b, DoesPathExist 3 chain 0 2 = some b ∧
      ((0 : Nat) ≠ 2 → (b = true ↔ chain.Reachable 0 2)) ∧
      ((0 : Nat) = 2 → (b = true ↔ chain.HasArc 0 2)) :=
  ⟨wellFormed_construct (by simp [InRange]), by decide, by decide, by decide,
    DoesPathExist_spec chain 0 2 3 (wellFormed_construct (by simp [InRange]))
      (by decide) (by decide) (by decide)⟩

/-! ## Path validity and path weight -/

/-- C9, evaluated at the failing input: on the chain `0→1`, `1→2` every consecutive
pair of `[0, 1, 2]` is a stored arc, but the loop reaches vertex `2`, which has no
outgoing arcs, and reads `*path.end()`; no value `true` is returned. -/
theorem IsPathValid_sink_undefined :
    chain.HasArc 0 1 ∧ chain.HasArc 1 2 ∧ chain.IsPathValid [0, 1, 2] = none :=
  ⟨⟨2, by decide!⟩, ⟨3, by decide!⟩, by decide!⟩

/-- C10, evaluated at the failing input: on the chain `0→1 (w=2)`, `1→2 (w=3)` the
arc weights along `[0, 1, 2]` sum to `5`, but `GetPathWeight([0, 1, 2])` inherits the
undefined read of `IsPathValid` and does not return `5`. -/
theorem GetPathWeight_sink_undefined :
    chain.storedWeight 0 1 = some 2 ∧ chain.storedWeight 1 2 = some 3 ∧
    chain.GetPathWeight [0, 1, 2] = none :=
  ⟨by decide!, by decide!, by decide!⟩

/-! ## Shortest paths: `FindMinimumWeightedPath` -/

theorem weight_lt_fin_iff (a : ℚ) (b : Weight) :
    (Weight.fin a).lt b = true ↔ b = Weight.inf ∨ ∃ d, b = Weight.fin d ∧ a < d := by
  cases b with
  | inf => simp [Weight.lt]
  | fin d => simp [Weight.lt]

theorem weight_lt_self (a : Weight) : a.lt a = false := by
  cases a <;> simp [Weight.lt]

theorem weight_lt_total (a b : Weight) : a.lt b = true ∨ a = b ∨ b.lt a = true := by
  cases a with
  | inf =>
    cases b with
    | inf => simp
    | fin d => simp [Weight.lt]
  | fin c =>
    cases b with
    | inf => simp [Weight.lt]
    | fin d =>
      simp only [Weight.lt, decide_eq_true_eq, Weight.fin.injEq]
      exact lt_trichotomy c d

/-- Two pairs are equivalent for the set ordering exactly when they are equal. -/
theorem pairLess_or_iff (x y : Nat × Weight) :
    (pairLess x y || pairLess y x) = true ↔ x ≠ y := by
  obtain ⟨x1, x2⟩ := x
  obtain ⟨y1, y2⟩ := y
  simp only [pairLess, Bool.or_eq_true, Bool.and_eq_true, Bool.not_eq_true', decide_eq_true_eq,
    decide_eq_false_iff_not, ne_eq, Prod.mk.injEq, not_and]
  constructor
  · rintro (h | h) h1
    · rcases h with h | ⟨_, h⟩
      · omega
      · intro h2
        rw [h2, weight_lt_self] at h
        exact absurd h (by simp)
    · rcases h with h | ⟨_, h⟩
      · omega
      · intro h2
        rw [h2, weight_lt_self] at h
        exact absurd h (by simp)
  · intro h
    rcases Nat.lt_trichotomy x1 y1 with h1 | h1 | h1
    · exact Or.inl (Or.inl h1)
    · subst h1
      rcases weight_lt_total x2 y2 with h2 | h2 | h2
      · exact Or.inl (Or.inr ⟨by omega, h2⟩)
      · exact absurd h2 (h rfl)
      · exact Or.inr (Or.inr ⟨by omega, h2⟩)
    · exact Or.inr (Or.inl h1)

theorem mem_setErase {x a : Nat × Weight} {q : List (Nat × Weight)} :
    a ∈ setErase x q ↔ a ∈ q ∧ a ≠ x := by
  unfold setErase
  rw [List.mem_filter, pairLess_or_iff]
  constructor
  · rintro ⟨h1, h2⟩
    exact ⟨h1, fun h => h2 h.symm⟩
  · rintro ⟨h1, h2⟩
    exact ⟨h1, fun h => h2 h.symm⟩

theorem mem_setInsert {x a : Nat × Weight} {q : List (Nat × Weight)} :
    a ∈ setInsert x q ↔ a = x ∨ a ∈ q := by
  induction q with
  | nil => simp [setInsert]
  | cons y ys ih =>
    unfold setInsert
    by_cases h1 : pairLess x y = true
    · rw [if_pos h1]
      simp
    · rw [if_neg h1]
      by_cases h2 : pairLess y x = true
      · rw [if_pos h2, List.mem_cons, ih, List.mem_cons]
        tauto
      · rw [if_neg h2]
        have hxy : x = y := by
          by_contra hne
          have := (pairLess_or_iff x y).2 hne
          simp [h1, h2] at this
        rw [hxy]
        simp

theorem sum_map_set {α : Type} (f : α → Nat) (l : List α) (i : Nat) (a d : α)
    (hi : i < l.length) :
    ((l.set i a).map f).sum + f (l.getD i d) = (l.map f).sum + f a := by
  induction l generalizing i with
  | nil => simp at hi
  | cons b bs ih =>
    cases i with
    | zero =>
      simp only [List.set_cons_zero, List.map_cons, List.sum_cons, List.getD_cons_zero]
      omega
    | succ i =>
      have hi1 : i < bs.length := by simpa using hi
      have := ih i hi1
      simp only [List.set_cons_succ, List.map_cons, List.sum_cons, List.getD_cons_succ]
      omega

theorem dist_lt_of_fin {s : PathSearch} {v : Nat} {d : ℚ} (h : s.dist v = Weight.fin d) :
    v < s.minDistance.length := by
  by_contra hn
  unfold PathSearch.dist at h
  rw [List.getD_eq_getElem?_getD, List.getElem?_eq_none (Nat.le_of_not_lt hn)] at h
  simp at h

theorem relax_eq (u : Nat) (du : ℚ) (s : PathSearch) (e : Nat × ℚ) :
    relax u (Weight.fin du) s e =
      if (Weight.fin (roundDouble (du + e.2))).lt (s.dist e.1) = true then
        { minDistance := s.minDistance.set e.1 (Weight.fin (roundDouble (du + e.2)))
          previous := s.previous.set e.1 (some u)
          vertexQueue := setInsert (e.1, Weight.fin (roundDouble (du + e.2)))
            (setErase (e.1, s.dist e.1) s.vertexQueue) }
      else s := rfl

theorem roundDouble_grid_nat {x : ℚ} (hx : 0 ≤ x) :
    ∃ k : Nat, roundDouble x = (k : ℚ) / (gridDenominator : ℚ) := by
  obtain ⟨k, hk⟩ := roundDouble_grid x
  have hD : (0 : ℚ) < (gridDenominator : ℚ) := by exact_mod_cast gridDenominator_pos
  have h0 := roundDouble_nonneg hx
  generalize gridDenominator = D at hk hD ⊢
  have hk0 : (0 : ℚ) ≤ (k : ℚ) := by
    rw [hk] at h0
    have := mul_nonneg h0 (le_of_lt hD)
    rwa [div_mul_cancel₀ _ (ne_of_gt hD)] at this
  have hk2 : 0 ≤ k := by exact_mod_cast hk0
  lift k to Nat using hk2
  exact ⟨k, by rw [hk]; simp⟩

theorem scaled_eq {D k : Nat} (hD : 0 < D) {d : ℚ} (h : d = (k : ℚ) / (D : ℚ)) :
    (d * (D : ℚ)).num.toNat = k := by
  have hD0 : (D : ℚ) ≠ 0 := by exact_mod_cast hD.ne'
  have : d * (D : ℚ) = (k : ℚ) := by
    rw [h]
    field_simp
  rw [this]
  simp

theorem nat_lt_of_div_lt {D k1 k2 : Nat} (hD : 0 < D)
    (h : (k1 : ℚ) / (D : ℚ) < (k2 : ℚ) / (D : ℚ)) : k1 < k2 := by
  have hD0 : (0 : ℚ) < (D : ℚ) := by exact_mod_cast hD
  have := (div_lt_div_iff_of_pos_right hD0).1 h
  exact_mod_cast this

/-- One iteration of the `for` loop keeps the invariant and either leaves the state
unchanged or makes progress. -/
theorem relax_step {g : WeightedDigraph} (hg : g.WellFormed) (hnn : g.NonNegative)
    {src : Nat} {u : Nat} {du : ℚ} {e : Nat × ℚ}
    {rest : List (Nat × ℚ)} (he : e ∈ g.outArcs u) {rank : Nat → Nat} {s : PathSearch}
    (inv : SearchInv g src rank (fun x a => x = u ∧ a ∈ e :: rest) s)
    (hu : s.dist u = Weight.fin du) :
    ∃ rank1, SearchInv g src rank1 (fun x a => x = u ∧ a ∈ rest) (relax u (Weight.fin du) s e) ∧
      (relax u (Weight.fin du) s e).dist u = Weight.fin du ∧
      (relax u (Weight.fin du) s e = s ∨
        Progress gridDenominator (relax u (Weight.fin du) s e) s) := by
  rw [relax_eq]
  have hw : 0 ≤ e.2 := hnn u e he
  have hdu : 0 ≤ du := inv.d_nonneg u du hu
  have hsum : 0 ≤ du + e.2 := by linarith
  generalize hnd : roundDouble (du + e.2) = nd
  have hnd0 : 0 ≤ nd := by rw [← hnd]; exact roundDouble_nonneg hsum
  have hdund : du ≤ nd := by
    rw [← hnd]
    exact le_roundDouble_add hdu hw (inv.d_rep u du hu)
  have hndrep : roundDouble nd = nd := by rw [← hnd]; exact roundDouble_idem hsum
  by_cases hc : (Weight.fin nd).lt (s.dist e.1) = true
  · rw [if_pos hc]
    have hv : e.1 < g.numVertices := hg.keys_lt u e he
    have hvd : e.1 < s.minDistance.length := by rw [inv.len_d]; exact hv
    have hvp : e.1 < s.previous.length := by rw [inv.len_p]; exact hv
    have hlt : ∀ dv, s.dist e.1 = Weight.fin dv → nd < dv := by
      intro dv hdv
      rcases (weight_lt_fin_iff _ _).1 hc with h | ⟨d, h1, h2⟩
      · rw [hdv] at h
        exact absurd h (by simp)
      · rw [hdv] at h1
        rw [Weight.fin.inj h1]
        exact h2
    have hvu : e.1 ≠ u := by
      intro h
      have := hlt du (by rw [h]; exact hu)
      linarith
    have hvs : e.1 ≠ src := by
      intro h
      have := hlt 0 (by rw [h]; exact inv.d_src)
      linarith
    generalize hs1 : ({ minDistance := s.minDistance.set e.1 (Weight.fin nd)
                        previous := s.previous.set e.1 (some u)
                        vertexQueue := setInsert (e.1, Weight.fin nd)
                          (setErase (e.1, s.dist e.1) s.vertexQueue) } : PathSearch) = s1
    have hdist : ∀ x, s1.dist x = if e.1 = x then Weight.fin nd else s.dist x := by
      intro x
      rw [← hs1]
      unfold PathSearch.dist
      simp only [getD_set_eq, hvd, and_true]
    have hpred : ∀ x, s1.pred x = if e.1 = x then some u else s.pred x := by
      intro x
      rw [← hs1]
      unfold PathSearch.pred
      simp only [getD_set_eq, hvp, and_true]
    have hqueue : ∀ a, a ∈ s1.vertexQueue ↔
        a = (e.1, Weight.fin nd) ∨ (a ∈ s.vertexQueue ∧ a ≠ (e.1, s.dist e.1)) := by
      intro a
      rw [← hs1]
      simp only [mem_setInsert, mem_setErase]
    have hdec : ∀ x dx, s.dist x = Weight.fin dx →
        ∃ dx1, s1.dist x = Weight.fin dx1 ∧ dx1 ≤ dx := by
      intro x dx hx
      rw [hdist]
      by_cases hxv : e.1 = x
      · rw [if_pos hxv]
        exact ⟨_, rfl, le_of_lt (hlt dx (by rw [hxv]; exact hx))⟩
      · rw [if_neg hxv]
        exact ⟨dx, hx, le_refl _⟩
    have hu1 : s1.dist u = Weight.fin du := by
      rw [hdist, if_neg hvu]
      exact hu
    refine ⟨Function.update rank e.1 (rank u + 1), ?_, hu1, Or.inr ?_⟩
    · refine ⟨?_, ?_, ?_, ?_, ?_, ?_, ?_, ?_, ?_⟩
      · rw [← hs1]
        simp [inv.len_d]
      · rw [← hs1]
        simp [inv.len_p]
      · rw [hdist, if_neg hvs]
        exact inv.d_src
      · intro x d hx
        rw [hdist] at hx
        by_cases hxv : e.1 = x
        · rw [if_pos hxv] at hx
          rw [← Weight.fin.inj hx]
          exact hnd0
        · rw [if_neg hxv] at hx
          exact inv.d_nonneg x d hx
      · intro x d hx
        rw [hdist] at hx
        by_cases hxv : e.1 = x
        · rw [if_pos hxv] at hx
          rw [← Weight.fin.inj hx]
          exact hndrep
        · rw [if_neg hxv] at hx
          exact inv.d_rep x d hx
      · intro x d hx
        rw [hdist] at hx
        by_cases hxv : e.1 = x
        · rw [if_pos hxv] at hx
          rw [← Weight.fin.inj hx, ← hnd]
          exact roundDouble_grid_nat hsum
        · rw [if_neg hxv] at hx
          exact inv.d_den x d hx
      · intro x d hx
        rcases (hqueue (x, d)).1 hx with h | ⟨h1, h2⟩
        · have hx1 : x = e.1 := (Prod.mk.inj h).1
          have hx2 : d = Weight.fin nd := (Prod.mk.inj h).2
          rw [hdist, hx1, if_pos rfl, hx2]
          exact ⟨rfl, by simp⟩
        · obtain ⟨h3, h4⟩ := inv.q_ok x d h1
          have hxv : ¬ e.1 = x := by
            intro hxv
            apply h2
            rw [← hxv] at h3 ⊢
            rw [h3]
          rw [hdist, if_neg hxv]
          exact ⟨h3, h4⟩
      · intro x d hxs hx
        rw [hdist] at hx
        by_cases hxv : e.1 = x
        · rw [if_pos hxv] at hx
          have hdn : nd = d := Weight.fin.inj hx
          refine ⟨u, e.2, du, ?_, ?_, hu1, ?_, ?_⟩
          · rw [hpred, if_pos hxv]
          · rw [← hxv]
            exact he
          · rw [hnd, hdn]
          · rw [← hdn]
            rcases lt_or_eq_of_le hdund with h | h
            · exact Or.inl h
            · right
              refine ⟨h, ?_⟩
              rw [← hxv]
              simp [Function.update, hvu.symm]
        · rw [if_neg hxv] at hx
          obtain ⟨p, wp, dp, hp1, hp2, hp3, hp4, hp5⟩ := inv.pred_ok x d hxs hx
          have hxv1 : ¬ x = e.1 := fun h => hxv h.symm
          have hwp : 0 ≤ wp := hnn p (x, wp) hp2
          have hdpd : dp ≤ d := by
            rcases hp5 with h | ⟨h, _⟩
            · exact le_of_lt h
            · exact le_of_eq h
          by_cases hpv : e.1 = p
          · have hndp := hlt dp (by rw [hpv]; exact hp3)
            refine ⟨p, wp, nd, ?_, hp2, ?_, ?_, Or.inl (by linarith)⟩
            · rw [hpred, if_neg hxv]
              exact hp1
            · rw [hdist, if_pos hpv]
            · exact le_trans
                (roundDouble_mono (by linarith) (by linarith : nd + wp ≤ dp + wp)) hp4
          · have hpv1 : ¬ p = e.1 := fun h => hpv h.symm
            refine ⟨p, wp, dp, ?_, hp2, ?_, hp4, ?_⟩
            · rw [hpred, if_neg hxv]
              exact hp1
            · rw [hdist, if_neg hpv]
              exact hp3
            · simpa [Function.update, hxv1, hpv1] using hp5
      · intro x dx hx a ha
        rw [hdist] at hx
        by_cases hxv : e.1 = x
        · rw [if_pos hxv] at hx
          left
          rw [hqueue, ← hxv, ← hx]
          exact Or.inl rfl
        · rw [if_neg hxv] at hx
          rcases inv.relaxed x dx hx a ha with h | ⟨hxu, h⟩ | ⟨dv, h1, h2⟩
          · left
            rw [hqueue]
            right
            refine ⟨h, ?_⟩
            intro heq
            exact hxv (Prod.mk.inj heq).1.symm
          · rcases List.mem_cons.1 h with h | h
            · right
              right
              have hdx : dx = du := by
                rw [hxu, hu] at hx
                exact (Weight.fin.inj hx).symm
              refine ⟨nd, ?_, ?_⟩
              · rw [hdist, h, if_pos rfl]
              · rw [h, hdx, hnd]
            · exact Or.inr (Or.inl ⟨hxu, h⟩)
          · obtain ⟨dv1, h3, h4⟩ := hdec a.1 dv h1
            exact Or.inr (Or.inr ⟨dv1, h3, le_trans h4 h2⟩)
    · have hm : s1.minDistance = s.minDistance.set e.1 (Weight.fin nd) := by
        rw [← hs1]
      unfold Progress infCount scaledSum
      rw [hm]
      have h1 := sum_map_set infWeight s.minDistance e.1 (Weight.fin nd) Weight.inf hvd
      have h2 := sum_map_set (scaledWeight gridDenominator) s.minDistance e.1 (Weight.fin nd)
        Weight.inf hvd
      cases hdv : s.dist e.1 with
      | inf =>
        left
        unfold PathSearch.dist at hdv
        rw [hdv] at h1
        simp only [infWeight] at h1
        omega
      | fin dv =>
        right
        have hlt1 := hlt dv hdv
        obtain ⟨k1, hk1⟩ := inv.d_den e.1 dv hdv
        obtain ⟨k2, hk2⟩ : ∃ k : Nat, nd = (k : ℚ) / (gridDenominator : ℚ) := by
          rw [← hnd]
          exact roundDouble_grid_nat hsum
        have hk : k2 < k1 := by
          apply nat_lt_of_div_lt gridDenominator_pos
          rw [← hk2, ← hk1]
          exact hlt1
        unfold PathSearch.dist at hdv
        rw [hdv] at h1 h2
        simp only [infWeight, scaledWeight] at h1 h2
        rw [scaled_eq gridDenominator_pos hk1, scaled_eq gridDenominator_pos hk2] at h2
        constructor
        · omega
        · omega
  · rw [if_neg hc]
    refine ⟨rank, ?_, hu, Or.inl rfl⟩
    refine ⟨inv.len_d, inv.len_p, inv.d_src, inv.d_nonneg, inv.d_rep, inv.d_den, inv.q_ok,
      inv.pred_ok, ?_⟩
    intro x dx hx a ha
    rcases inv.relaxed x dx hx a ha with h | ⟨hxu, h⟩ | h
    · exact Or.inl h
    · rcases List.mem_cons.1 h with h | h
      · right
        right
        have hdx : dx = du := by
          rw [hxu, hu] at hx
          exact (Weight.fin.inj hx).symm
        rw [h, hdx, hnd]
        cases hdv : s.dist e.1 with
        | inf =>
          rw [hdv] at hc
          simp [Weight.lt] at hc
        | fin dv =>
          rw [hdv] at hc
          refine ⟨dv, rfl, ?_⟩
          simpa [Weight.lt] using hc
      · exact Or.inr (Or.inl ⟨hxu, h⟩)
    · exact Or.inr (Or.inr h)

theorem progress_trans {D : Nat} {a b c : PathSearch} (h1 : Progress D a b)
    (h2 : Progress D b c) : Progress D a c := by
  unfold Progress at *
  omega

/-- The whole `for` loop over the out-arcs of `u` re-establishes the invariant with
nothing pending, and either changes nothing or makes progress. -/
theorem relax_foldl {g : WeightedDigraph} (hg : g.WellFormed) (hnn : g.NonNegative)
    {src : Nat} {u : Nat} {du : ℚ} (arcs : List (Nat × ℚ))
    (harcs : ∀ e, e ∈ arcs → e ∈ g.outArcs u) :
    ∀ (rank : Nat → Nat) (s : PathSearch),
      SearchInv g src rank (fun x a => x = u ∧ a ∈ arcs) s →
      s.dist u = Weight.fin du →
      ∃ rank1, SearchInv g src rank1 (fun _ _ => False)
          (arcs.foldl (relax u (Weight.fin du)) s) ∧
        (arcs.foldl (relax u (Weight.fin du)) s = s ∨
          Progress gridDenominator (arcs.foldl (relax u (Weight.fin du)) s) s) := by
  induction arcs with
  | nil =>
    intro rank s inv _
    refine ⟨rank, ⟨inv.len_d, inv.len_p, inv.d_src, inv.d_nonneg, inv.d_rep, inv.d_den, inv.q_ok,
      inv.pred_ok, ?_⟩, Or.inl rfl⟩
    intro x dx hx a ha
    rcases inv.relaxed x dx hx a ha with h | ⟨_, h⟩ | h
    · exact Or.inl h
    · simp at h
    · exact Or.inr (Or.inr h)
  | cons e rest ih =>
    intro rank s inv hu
    obtain ⟨rank1, inv1, hu1, hp1⟩ :=
      relax_step hg hnn (harcs e (List.mem_cons_self _ _)) inv hu
    obtain ⟨rank2, inv2, hp2⟩ :=
      ih (fun a ha => harcs a (List.mem_cons_of_mem _ ha)) rank1 _ inv1 hu1
    rw [List.foldl_cons]
    refine ⟨rank2, inv2, ?_⟩
    rcases hp2 with h2 | h2
    · rw [h2]
      exact hp1
    · right
      rcases hp1 with h1 | h1
      · rw [h1] at h2 ⊢
        exact h2
      · exact progress_trans h2 h1

theorem searchWhile_nil (g : WeightedDigraph) (fuel : Nat) {s : PathSearch}
    (h : s.vertexQueue = []) : searchWhile g fuel s = some s := by
  unfold searchWhile
  rw [h]

theorem searchWhile_cons (g : WeightedDigraph) (fuel : Nat) {s : PathSearch} {u : Nat}
    {distance : Weight} {queue : List (Nat × Weight)} (h : s.vertexQueue = (u, distance) :: queue) :
    searchWhile g (fuel + 1) s = searchWhile g fuel
      ((g.outArcs u).foldl (relax u distance)
        { minDistance := s.minDistance, previous := s.previous, vertexQueue := queue }) := by
  rw [searchWhile, h]

theorem searchWhile_mono (g : WeightedDigraph) (k : Nat) :
    ∀ (fuel : Nat) (s s1 : PathSearch), searchWhile g fuel s = some s1 →
      searchWhile g (fuel + k) s = some s1 := by
  intro fuel
  induction fuel with
  | zero =>
    intro s s1 h
    cases hq : s.vertexQueue with
    | nil =>
      rw [searchWhile_nil g _ hq] at h ⊢
      exact h
    | cons x xs =>
      unfold searchWhile at h
      rw [hq] at h
      simp at h
  | succ fuel ih =>
    intro s s1 h
    cases hq : s.vertexQueue with
    | nil =>
      rw [searchWhile_nil g _ hq] at h ⊢
      exact h
    | cons x xs =>
      obtain ⟨u, d⟩ := x
      rw [searchWhile_cons g _ hq] at h
      rw [show fuel + 1 + k = (fuel + k) + 1 by omega, searchWhile_cons g _ hq]
      exact ih _ _ h

/-- The `while` loop of `FindMinimumWeightedPath` terminates from every state that
satisfies the invariant, in a state with an empty frontier that satisfies it. -/
theorem searchWhile_terminates {g : WeightedDigraph} (hg : g.WellFormed) (hnn : g.NonNegative)
    {src : Nat} :
    ∀ (p : Nat × Nat × Nat) (s : PathSearch) (rank : Nat → Nat),
      (infCount s, scaledSum gridDenominator s, s.vertexQueue.length) = p →
      SearchInv g src rank (fun _ _ => False) s →
      ∃ fuel s1 rank1, searchWhile g fuel s = some s1 ∧
        SearchInv g src rank1 (fun _ _ => False) s1 ∧ s1.vertexQueue = [] := by
  have wf : WellFounded (Prod.Lex (fun a b : Nat => a < b)
      (Prod.Lex (fun a b : Nat => a < b) (fun a b : Nat => a < b))) :=
    WellFounded.prod_lex Nat.lt_wfRel.wf (WellFounded.prod_lex Nat.lt_wfRel.wf Nat.lt_wfRel.wf)
  intro p
  induction p using wf.induction with
  | _ p ih =>
    intro s rank hm inv
    cases hq : s.vertexQueue with
    | nil => exact ⟨0, s, rank, searchWhile_nil g 0 hq, inv, hq⟩
    | cons x queue =>
      obtain ⟨u, d⟩ := x
      obtain ⟨hd1, hd2⟩ := inv.q_ok u d (by rw [hq]; exact List.mem_cons_self _ _)
      obtain ⟨du, rfl⟩ : ∃ du, d = Weight.fin du := by
        cases d with
        | inf => exact absurd rfl hd2
        | fin du => exact ⟨du, rfl⟩
      have inv0 : SearchInv g src rank (fun x a => x = u ∧ a ∈ g.outArcs u)
          { minDistance := s.minDistance, previous := s.previous, vertexQueue := queue } := by
        refine ⟨inv.len_d, inv.len_p, inv.d_src, inv.d_nonneg, inv.d_rep, inv.d_den, ?_, inv.pred_ok, ?_⟩
        · intro v dv hv
          exact inv.q_ok v dv (by rw [hq]; exact List.mem_cons_of_mem _ hv)
        · intro x dx hx a ha
          rcases inv.relaxed x dx hx a ha with h | h | h
          · rw [hq] at h
            rcases List.mem_cons.1 h with h | h
            · have hxu : x = u := (Prod.mk.inj h).1
              exact Or.inr (Or.inl ⟨hxu, by rw [← hxu]; exact ha⟩)
            · exact Or.inl h
          · exact absurd h id
          · exact Or.inr (Or.inr h)
      obtain ⟨rank1, inv1, hp⟩ :=
        relax_foldl hg hnn (g.outArcs u) (fun _ h => h) rank _ inv0 hd1
      have hdec : Prod.Lex (fun a b : Nat => a < b)
          (Prod.Lex (fun a b : Nat => a < b) (fun a b : Nat => a < b))
          (infCount ((g.outArcs u).foldl (relax u (Weight.fin du))
              { minDistance := s.minDistance, previous := s.previous, vertexQueue := queue }),
            scaledSum gridDenominator ((g.outArcs u).foldl (relax u (Weight.fin du))
              { minDistance := s.minDistance, previous := s.previous, vertexQueue := queue }),
            ((g.outArcs u).foldl (relax u (Weight.fin du))
              { minDistance := s.minDistance, previous := s.previous,
                vertexQueue := queue }).vertexQueue.length) p := by
        rw [← hm]
        rcases hp with h | h
        · rw [h]
          change Prod.Lex _ _ (infCount s, scaledSum gridDenominator s, queue.length) _
          apply Prod.Lex.right
          apply Prod.Lex.right
          rw [hq]
          simp
        · rcases h with h | ⟨h1, h2⟩
          · exact Prod.Lex.left _ _ h
          · change _ = infCount s at h1
            rw [h1]
            apply Prod.Lex.right
            exact Prod.Lex.left _ _ h2
      obtain ⟨fuel, s2, rank2, hs2, inv2, hq2⟩ := ih _ hdec _ rank1 rfl inv1
      exact ⟨fuel + 1, s2, rank2, by rw [searchWhile_cons g fuel hq]; exact hs2, inv2, hq2⟩

theorem storedWeight_of_mem {g : WeightedDigraph} (hg : g.WellFormed) {u v : Nat} {w : ℚ}
    (h : (v, w) ∈ g.outArcs u) : g.storedWeight u v = some w := by
  unfold storedWeight
  rw [mapFind_of_mem (hg.keys_nodup u) h]
  rfl

theorem arcSum_cons_cons (g : WeightedDigraph) (a b : Nat) (rest : List Nat) :
    arcSum g (a :: b :: rest) = (g.storedWeight a b).getD 0 + arcSum g (b :: rest) := rfl

theorem arcSum_snoc (g : WeightedDigraph) (l : List Nat) (a b : Nat) :
    arcSum g (l ++ [a, b]) = arcSum g (l ++ [a]) + (g.storedWeight a b).getD 0 := by
  induction l with
  | nil => simp [arcSum]
  | cons x xs ih =>
    cases xs with
    | nil => simp [arcSum]
    | cons y ys =>
      simp only [List.cons_append] at ih ⊢
      rw [arcSum_cons_cons, arcSum_cons_cons, ih]
      ring

theorem mem_outArcs_lt {g : WeightedDigraph} {u : Nat} {e : Nat × ℚ} (h : e ∈ g.outArcs u) :
    u < g.pathMaps.length := by
  by_contra hn
  unfold outArcs at h
  rw [List.getD_eq_getElem?_getD, List.getElem?_eq_none (Nat.le_of_not_lt hn)] at h
  simp at h

theorem getD_replicate_inf (n x : Nat) :
    (List.replicate n Weight.inf).getD x Weight.inf = Weight.inf := by
  rw [List.getD_eq_getElem?_getD, List.getElem?_replicate]
  split <;> rfl

theorem searchStart_dist {g : WeightedDigraph} {src : Nat} (hs : src < g.numVertices) (x : Nat) :
    (searchStart g src).dist x = if src = x then Weight.fin 0 else Weight.inf := by
  unfold PathSearch.dist searchStart
  simp only [getD_set_eq, List.length_replicate, hs, and_true, getD_replicate_inf]

theorem searchStart_queue {g : WeightedDigraph} {src : Nat} (hs : src < g.numVertices) :
    (searchStart g src).vertexQueue = [(src, Weight.fin 0)] := by
  unfold searchStart
  simp only [getD_set_eq, List.length_replicate, hs, and_true, if_true, setInsert]

theorem searchStart_inv {g : WeightedDigraph} {src : Nat} (hs : src < g.numVertices) :
    SearchInv g src (fun _ => 0) (fun _ _ => False) (searchStart g src) := by
  have hfin : ∀ x d, (searchStart g src).dist x = Weight.fin d → x = src ∧ d = 0 := by
    intro x d hx
    rw [searchStart_dist hs] at hx
    by_cases hxs : src = x
    · rw [if_pos hxs] at hx
      exact ⟨hxs.symm, (Weight.fin.inj hx).symm⟩
    · rw [if_neg hxs] at hx
      exact absurd hx (by simp)
  refine ⟨by simp [searchStart], by simp [searchStart], ?_, ?_, ?_, ?_, ?_, ?_, ?_⟩
  · rw [searchStart_dist hs, if_pos rfl]
  · intro v d hv
    rw [(hfin v d hv).2]
  · intro v d hv
    rw [(hfin v d hv).2]
    exact roundDouble_zero
  · intro v d hv
    exact ⟨0, by rw [(hfin v d hv).2]; simp⟩
  · intro v d hv
    rw [searchStart_queue hs] at hv
    have hvd : (v, d) = (src, Weight.fin 0) := by simpa using hv
    rw [(Prod.mk.inj hvd).1, (Prod.mk.inj hvd).2, searchStart_dist hs, if_pos rfl]
    exact ⟨rfl, by simp⟩
  · intro v d hvs hv
    exact absurd (hfin v d hv).1 hvs
  · intro u du hu e _
    left
    rw [searchStart_queue hs, (hfin u du hu).1, (hfin u du hu).2]
    simp

theorem roundedSumFrom_snoc (g : WeightedDigraph) :
    ∀ (l : List Nat) (c : ℚ) (p a b : Nat),
      roundedSumFrom g c p (l ++ [a, b])
        = roundDouble (roundedSumFrom g c p (l ++ [a]) + (g.storedWeight a b).getD 0) := by
  intro l
  induction l with
  | nil =>
    intro c p a b
    simp [roundedSumFrom]
  | cons x xs ih =>
    intro c p a b
    simp only [List.cons_append, roundedSumFrom]
    exact ih _ x a b

theorem roundedSum_snoc (g : WeightedDigraph) (l : List Nat) (a b : Nat) :
    roundedSum g (l ++ [a, b])
      = roundDouble (roundedSum g (l ++ [a]) + (g.storedWeight a b).getD 0) := by
  cases l with
  | nil => simp [roundedSum, roundedSumFrom]
  | cons x xs =>
    simp only [List.cons_append, roundedSum]
    exact roundedSumFrom_snoc g xs 0 x a b

/-- When no addition rounds, the weight accumulated in double arithmetic is the exact sum. -/
theorem roundedSumFrom_exact (g : WeightedDigraph) :
    ∀ (rest : List Nat) (c : ℚ) (prev : Nat), sumsExactlyFrom g c prev rest →
      roundedSumFrom g c prev rest = c + arcSum g (prev :: rest) := by
  intro rest
  induction rest with
  | nil =>
    intro c prev _
    simp [roundedSumFrom, arcSum]
  | cons x rest ih =>
    intro c prev h
    obtain ⟨h1, h2⟩ := h
    rw [roundedSumFrom, h1, ih _ x h2, arcSum_cons_cons]
    ring

/-- With an empty frontier every arc out of a reached vertex is relaxed. -/
theorem final_relaxed {g : WeightedDigraph} {src : Nat} {rank : Nat → Nat} {s : PathSearch}
    (inv : SearchInv g src rank (fun _ _ => False) s) (hq : s.vertexQueue = [])
    {u : Nat} {du : ℚ} (hu : s.dist u = Weight.fin du) {e : Nat × ℚ} (he : e ∈ g.outArcs u) :
    ∃ dv, s.dist e.1 = Weight.fin dv ∧ dv ≤ roundDouble (du + e.2) := by
  rcases inv.relaxed u du hu e he with h | h | h
  · rw [hq] at h
    simp at h
  · exact absurd h id
  · exact h

/-- In the final state `minDistance` is a lower bound for the weight, accumulated in
double arithmetic, of every walk. -/
theorem final_lower_bound {g : WeightedDigraph} (hg : g.WellFormed) (hnn : g.NonNegative)
    {src : Nat} {rank : Nat → Nat} {s : PathSearch}
    (inv : SearchInv g src rank (fun _ _ => False) s) (hq : s.vertexQueue = []) :
    ∀ (l : List Nat) (u : Nat) (du c : ℚ) (x : Nat), s.dist u = Weight.fin du → du ≤ c →
      List.Chain g.HasArc u l → (u :: l).getLast? = some x →
      ∃ dx, s.dist x = Weight.fin dx ∧ dx ≤ roundedSumFrom g c u l := by
  intro l
  induction l with
  | nil =>
    intro u du c x hu hc _ hx
    have : u = x := by simpa using hx
    rw [← this]
    exact ⟨du, hu, by simpa [roundedSumFrom] using hc⟩
  | cons v l ih =>
    intro u du c x hu hc hch hx
    rw [List.chain_cons] at hch
    obtain ⟨⟨w, hw⟩, hc2⟩ := hch
    obtain ⟨dv, hdv, hle⟩ := final_relaxed inv hq hu hw
    rw [List.getLast?_cons_cons] at hx
    have hw0 : 0 ≤ w := hnn u (v, w) hw
    have hdu0 : 0 ≤ du := inv.d_nonneg u du hu
    have hstep : dv ≤ roundDouble (c + (g.storedWeight u v).getD 0) := by
      rw [storedWeight_of_mem hg hw]
      simp only [Option.getD_some]
      simp only at hle
      exact le_trans hle (roundDouble_mono (by linarith) (by linarith))
    obtain ⟨dx, hdx, hle2⟩ := ih v dv _ x hdv hstep hc2 hx
    exact ⟨dx, hdx, by rw [roundedSumFrom]; exact hle2⟩

/-- In the final state the loop that follows `previous` from `v` reaches `src`, and
the vertices it prepends form a walk whose weight in double arithmetic is
`minDistance[v]`. -/
theorem rebuild_spec {g : WeightedDigraph} (hg : g.WellFormed) {src : Nat}
    {rank : Nat → Nat} {s : PathSearch}
    (inv : SearchInv g src rank (fun _ _ => False) s) (hq : s.vertexQueue = []) :
    ∀ (p : Nat × Nat) (v : Nat) (d : ℚ),
      (scaledWeight gridDenominator (Weight.fin d), rank v) = p → v ≠ src →
      s.dist v = Weight.fin d →
      ∃ N, ∀ fuel, N ≤ fuel → ∀ acc, ∃ pre,
        rebuild s.previous src fuel v acc = some (pre ++ acc) ∧
        pre.head? = some src ∧ List.Chain' g.HasArc (pre ++ [v]) ∧
        roundedSum g (pre ++ [v]) = d := by
  have wf : WellFounded (Prod.Lex (fun a b : Nat => a < b) (fun a b : Nat => a < b)) :=
    WellFounded.prod_lex Nat.lt_wfRel.wf Nat.lt_wfRel.wf
  intro p
  induction p using wf.induction with
  | _ p ih =>
    intro v d hp hvs hv
    obtain ⟨u, w, du, hpre, hw, hu, hle1, hlex⟩ := inv.pred_ok v d hvs hv
    obtain ⟨dv, hdv, hle2⟩ := final_relaxed inv hq hu hw
    rw [hv] at hdv
    rw [← Weight.fin.inj hdv] at hle2
    simp only at hle2
    have heq : roundDouble (du + w) = d := le_antisymm hle1 hle2
    have hpv : s.previous.getD v none = some u := hpre
    have hchain : List.Chain' g.HasArc [u, v] := by
      simp only [List.chain'_cons, List.chain'_singleton, and_true]
      exact ⟨w, hw⟩
    by_cases hus : u = src
    · refine ⟨1, fun fuel hfuel acc => ?_⟩
      obtain ⟨f, rfl⟩ : ∃ f, fuel = f + 1 := ⟨fuel - 1, by omega⟩
      rw [rebuild, hpv]
      simp only [if_pos hus]
      refine ⟨[u], rfl, by simp [hus], hchain, ?_⟩
      have hdu : du = 0 := by
        rw [hus, inv.d_src] at hu
        exact (Weight.fin.inj hu).symm
      simp only [List.singleton_append, roundedSum, roundedSumFrom,
        storedWeight_of_mem hg hw, Option.getD_some]
      rw [← heq, hdu]
    · have hdec : Prod.Lex (fun a b : Nat => a < b) (fun a b : Nat => a < b)
          (scaledWeight gridDenominator (Weight.fin du), rank u) p := by
        rw [← hp]
        obtain ⟨k1, hk1⟩ := inv.d_den u du hu
        obtain ⟨k2, hk2⟩ := inv.d_den v d hv
        simp only [scaledWeight]
        rw [scaled_eq gridDenominator_pos hk1, scaled_eq gridDenominator_pos hk2]
        rcases hlex with h | ⟨h1, h2⟩
        · apply Prod.Lex.left
          apply nat_lt_of_div_lt gridDenominator_pos
          rw [← hk1, ← hk2]
          exact h
        · have hk : k1 = k2 := by
            have h3 : (k1 : ℚ) / (gridDenominator : ℚ) = (k2 : ℚ) / (gridDenominator : ℚ) := by
              rw [← hk1, ← hk2]
              exact h1
            have hD : (0 : ℚ) < (gridDenominator : ℚ) := by exact_mod_cast gridDenominator_pos
            have h4 := (div_left_inj' (ne_of_gt hD)).1 h3
            exact_mod_cast h4
          rw [hk]
          exact Prod.Lex.right _ h2
      obtain ⟨N, hN⟩ := ih _ hdec u du rfl hus hu
      refine ⟨N + 1, fun fuel hfuel acc => ?_⟩
      obtain ⟨f, rfl⟩ : ∃ f, fuel = f + 1 := ⟨fuel - 1, by omega⟩
      obtain ⟨pre, h1, h2, h3, h4⟩ := hN f (by omega) (u :: acc)
      rw [rebuild, hpv]
      simp only [if_neg hus]
      refine ⟨pre ++ [u], ?_, ?_, ?_, ?_⟩
      · rw [h1]
        simp
      · cases pre with
        | nil => simp at h2
        | cons a as => simpa using h2
      · rw [List.append_assoc]
        change List.Chain' g.HasArc (pre ++ u :: [v])
        rw [List.chain'_split]
        exact ⟨h3, hchain⟩
      · rw [List.append_assoc]
        change roundedSum g (pre ++ [u, v]) = d
        rw [roundedSum_snoc, h4, storedWeight_of_mem hg hw]
        simp only [Option.getD_some]
        exact heq

/-- Every vertex reachable from `src` has a finite entry in the final `minDistance`. -/
theorem final_reached {g : WeightedDigraph} {src : Nat} {rank : Nat → Nat} {s : PathSearch}
    (inv : SearchInv g src rank (fun _ _ => False) s) (hq : s.vertexQueue = [])
    {x : Nat} (hr : g.Reachable src x) : ∃ dx, s.dist x = Weight.fin dx := by
  induction hr with
  | refl => exact ⟨0, inv.d_src⟩
  | tail _ hbc ih =>
    obtain ⟨db, hb⟩ := ih
    obtain ⟨w, hw⟩ := hbc
    obtain ⟨dv, hdv, _⟩ := final_relaxed inv hq hb hw
    exact ⟨dv, hdv⟩

theorem FindMinimumWeightedPath_eq (fuel : Nat) (g : WeightedDigraph) {src dst : Nat}
    (hne : src ≠ dst) :
    FindMinimumWeightedPath fuel g src dst =
      (searchWhile g fuel (searchStart g src)).bind
        (fun s => rebuild s.previous src fuel dst [dst]) := by
  unfold FindMinimumWeightedPath searchStart
  simp only [if_neg hne]
  split
  · rename_i h
    rw [h]
    rfl
  · rename_i h
    rw [h]
    rfl

/-- Under the precondition of `FindMinimumWeightedPath` (non-negative weights, `to`
reachable from `from`, distinct in-range vertices) enough fuel makes the function
return a walk from `from` to `to` whose weight, accumulated in double arithmetic, is
minimal among all such walks. -/
theorem FindMinimumWeightedPath_correct {g : WeightedDigraph} (hg : g.WellFormed)
    (hnn : g.NonNegative) {src dst : Nat} (hs : src < g.numVertices) (hne : src ≠ dst)
    (hr : g.Reachable src dst) :
    ∃ N, ∀ fuel, N ≤ fuel → ∃ path, FindMinimumWeightedPath fuel g src dst = some path ∧
      IsWalk g src dst path ∧ ∀ l, IsWalk g src dst l → roundedSum g path ≤ roundedSum g l := by
  obtain ⟨fuel1, s1, rank1, hrun, inv, hq⟩ :=
    searchWhile_terminates hg hnn _ (searchStart g src) (fun _ => 0) rfl (searchStart_inv hs)
  obtain ⟨d, hd⟩ := final_reached inv hq hr
  obtain ⟨N2, hN2⟩ := rebuild_spec hg inv hq _ dst d rfl (Ne.symm hne) hd
  refine ⟨max fuel1 N2, ?_⟩
  intro fuel hfuel
  have hf1 : fuel1 ≤ fuel := le_trans (le_max_left _ _) hfuel
  have hf2 : N2 ≤ fuel := le_trans (le_max_right _ _) hfuel
  have hrun1 : searchWhile g fuel (searchStart g src) = some s1 := by
    have := searchWhile_mono g (fuel - fuel1) fuel1 _ _ hrun
    rw [show fuel1 + (fuel - fuel1) = fuel by omega] at this
    exact this
  obtain ⟨pre, h1, h2, h3, h4⟩ := hN2 fuel hf2 [dst]
  refine ⟨pre ++ [dst], ?_, ⟨?_, ?_, h3⟩, ?_⟩
  · rw [FindMinimumWeightedPath_eq fuel g hne, hrun1]
    exact h1
  · cases pre with
    | nil => simp at h2
    | cons a as => simpa using h2
  · simp
  · intro l hl
    obtain ⟨hl1, hl2, hl3⟩ := hl
    cases l with
    | nil => simp at hl1
    | cons a as =>
      have ha : a = src := by simpa using hl1
      subst ha
      obtain ⟨dx, hdx, hle⟩ :=
        final_lower_bound hg hnn inv hq as a 0 0 dst inv.d_src (le_refl _) hl3 hl2
      rw [hd] at hdx
      rw [h4, Weight.fin.inj hdx]
      exact hle

/-- When no addition rounds, the weight computed in double arithmetic is the exact sum
of the stored arc weights. -/
theorem roundedSum_exact (g : WeightedDigraph) (l : List Nat) (h : sumsExactly g l) :
    roundedSum g l = arcSum g l := by
  cases l with
  | nil => rfl
  | cons v rest =>
    have := roundedSumFrom_exact g rest 0 v h
    rw [zero_add] at this
    exact this

theorem nonNegative_construct {n : Nat} {arcs : List (Nat × Nat × ℚ)} (h : InRange n arcs)
    (hw : ∀ a, a ∈ arcs → 0 ≤ a.2.2) : (construct n arcs).NonNegative := by
  intro u e he
  have hf := mapFind_of_mem ((wellFormed_construct h).keys_nodup u) (show (e.1, e.2) ∈ _ from he)
  rw [mapFind_construct h u e.1] at hf
  cases hfl : arcs.find? (fun a => a.1 == u && a.2.1 == e.1) with
  | none =>
    rw [hfl] at hf
    simp at hf
  | some a =>
    rw [hfl] at hf
    have ha := List.mem_of_find?_eq_some hfl
    have h2 : (a.2.1, a.2.2) = (e.1, e.2) := by simpa using hf
    rw [← (Prod.mk.inj h2).2]
    exact hw a ha

/-- The reconstruction loop returns the same list when given more fuel. -/
theorem rebuild_mono (previous : List (Option Nat)) (src : Nat) (k : Nat) :
    ∀ (fuel vertex : Nat) (path p : List Nat), rebuild previous src fuel vertex path = some p →
      rebuild previous src (fuel + k) vertex path = some p := by
  intro fuel
  induction fuel with
  | zero =>
    intro vertex path p h
    simp [rebuild] at h
  | succ f ih =>
    intro vertex path p h
    rw [show f + 1 + k = (f + k) + 1 by omega]
    rw [rebuild] at h ⊢
    cases hp : previous.getD vertex none with
    | none =>
      rw [hp] at h
      simp at h
    | some q =>
      rw [hp] at h
      simp only at h ⊢
      by_cases hq : q = src
      · rw [if_pos hq] at h ⊢
        exact h
      · rw [if_neg hq] at h ⊢
        exact ih q (q :: path) p h

/-- The result of `FindMinimumWeightedPath` does not depend on the fuel, once there is
enough of it. -/
theorem FindMinimumWeightedPath_mono (g : WeightedDigraph) (src dst fuel k : Nat)
    (p : List Nat) (h : FindMinimumWeightedPath fuel g src dst = some p) :
    FindMinimumWeightedPath (fuel + k) g src dst = some p := by
  by_cases hne : src = dst
  · unfold FindMinimumWeightedPath at h ⊢
    simp only [if_pos hne] at h ⊢
    exact h
  · rw [FindMinimumWeightedPath_eq fuel g hne] at h
    rw [FindMinimumWeightedPath_eq (fuel + k) g hne]
    cases hs : searchWhile g fuel (searchStart g src) with
    | none =>
      rw [hs] at h
      simp at h
    | some s =>
      rw [hs] at h
      rw [searchWhile_mono g k fuel _ _ hs]
      exact rebuild_mono s.previous src k fuel dst [dst] p h

/-- C1, refuted as stated: on the graph `0→1 (w=2^60)`, `1→2 (w=1)`, `0→3 (w=2^60)`,
`3→2 (w=1/2)`, `2→0 (w=1)`, whose weights are in range and non-negative,
`FindMinimumWeightedPath(0, 2)` returns `[0, 1, 2]`, whose stored arc weights add up to
`2^60 + 1`, although `[0, 3, 2]` follows direct arcs and adds up to `2^60 + 1/2`: in
double arithmetic both `2^60 + 1` and `2^60 + 1/2` are `2^60`, so the second route
is never seen as an improvement. -/
theorem FindMinimumWeightedPath_not_minimal :
    InRange 4 [(0, 1, 1152921504606846976), (1, 2, 1), (0, 3, 1152921504606846976),
      (3, 2, 1 / 2), (2, 0, 1)] ∧
    roundingGraph.NonNegative ∧
    FindMinimumWeightedPath 4 roundingGraph 0 2 = some [0, 1, 2] ∧
    IsWalk roundingGraph 0 2 [0, 3, 2] ∧
    arcSum roundingGraph [0, 1, 2] = 1152921504606846977 ∧
    arcSum roundingGraph [0, 3, 2] = 1152921504606846976 + 1 / 2 ∧
    arcSum roundingGraph [0, 3, 2] < arcSum roundingGraph [0, 1, 2] := by
  refine ⟨by simp [InRange], nonNegative_construct (by simp [InRange]) ?_, by decide!,
    ⟨rfl, rfl, ?_⟩, by decide!, by decide!, by decide!⟩
  · intro a ha
    simp only [List.mem_cons, List.mem_singleton, List.not_mem_nil, or_false] at ha
    rcases ha with rfl | rfl | rfl | rfl | rfl <;> norm_num
  · simp only [List.chain'_cons, List.chain'_singleton, and_true]
    exact ⟨⟨1152921504606846976, by decide!⟩, ⟨1 / 2, by decide!⟩⟩

/-- C1, amended: on a graph built from in-range triples with non-negative weights, for
distinct in-range vertices with `to` reachable from `from`, enough fuel makes
`FindMinimumWeightedPath(from, to)` return a sequence that starts at `from`, ends at
`to` and follows direct arcs, and whose weight, added up arc by arc in double
arithmetic, is at most that of every sequence from `from` to `to` along direct arcs;
when no addition rounds on either sequence, the same holds of the exact sums of the
stored arc weights. -/
theorem FindMinimumWeightedPath_minimal (n : Nat) (arcs : List (Nat × Nat × ℚ))
    (src dst : Nat) (h : InRange n arcs) (hw : ∀ a, a ∈ arcs → 0 ≤ a.2.2) (hs : src < n)
    (hd : dst < n) (hne : src ≠ dst) (hr : (construct n arcs).Reachable src dst) :
    ∃ N, ∀ fuel, N ≤ fuel →
      ∃ path, FindMinimumWeightedPath fuel (construct n arcs) src dst = some path ∧
        IsWalk (construct n arcs) src dst path ∧
        ∀ l, IsWalk (construct n arcs) src dst l →
          roundedSum (construct n arcs) path ≤ roundedSum (construct n arcs) l ∧
          (sumsExactly (construct n arcs) path → sumsExactly (construct n arcs) l →
            arcSum (construct n arcs) path ≤ arcSum (construct n arcs) l) := by
  obtain ⟨N, hN⟩ := FindMinimumWeightedPath_correct (wellFormed_construct h)
    (nonNegative_construct h hw) (by rw [numVertices_construct]; exact hs) hne hr
  refine ⟨N, fun fuel hfuel => ?_⟩
  obtain ⟨path, h1, h2, h3⟩ := hN fuel hfuel
  refine ⟨path, h1, h2, fun l hl => ⟨h3 l hl, fun he1 he2 => ?_⟩⟩
  rw [← roundedSum_exact _ _ he1, ← roundedSum_exact _ _ he2]
  exact h3 l hl

/-- A witness for C1 as amended: the triangle `0→1 (w=1)`, `0→2 (w=4)`, `1→2 (w=1)`
from `0` to `2`. -/
theorem FindMinimumWeightedPath_minimal_witness :
    InRange 3 [(0, 1, 1), (0, 2, 4), (1, 2, 1)] ∧
    (∀ a, a ∈ [((0 : Nat), (1 : Nat), (1 : ℚ)), (0, 2, 4), (1, 2, 1)] → 0 ≤ a.2.2) ∧
    0 < 3 ∧ 2 < 3 ∧ (0 : Nat) ≠ 2 ∧
    (construct 3 [(0, 1, 1), (0, 2, 4), (1, 2, 1)]).Reachable 0 2 ∧
    ∃ N, ∀ fuel, N ≤ fuel →
      ∃ path, FindMinimumWeightedPath fuel (construct 3 [(0, 1, 1), (0, 2, 4), (1, 2, 1)]) 0 2
          = some path ∧
        IsWalk (construct 3 [(0, 1, 1), (0, 2, 4), (1, 2, 1)]) 0 2 path ∧
        ∀ l, IsWalk (construct 3 [(0, 1, 1), (0, 2, 4), (1, 2, 1)]) 0 2 l →
          roundedSum (construct 3 [(0, 1, 1), (0, 2, 4), (1, 2, 1)]) path
            ≤ roundedSum (construct 3 [(0, 1, 1), (0, 2, 4), (1, 2, 1)]) l ∧
          (sumsExactly (construct 3 [(0, 1, 1), (0, 2, 4), (1, 2, 1)]) path →
            sumsExactly (construct 3 [(0, 1, 1), (0, 2, 4), (1, 2, 1)]) l →
            arcSum (construct 3 [(0, 1, 1), (0, 2, 4), (1, 2, 1)]) path
              ≤ arcSum (construct 3 [(0, 1, 1), (0, 2, 4), (1, 2, 1)]) l) :=
  ⟨by simp [InRange], by simp, by decide, by decide, by decide,
    Relation.ReflTransGen.single ⟨4, by decide!⟩,
    FindMinimumWeightedPath_minimal 3 [(0, 1, 1), (0, 2, 4), (1, 2, 1)] 0 2 (by simp [InRange])
      (by simp) (by decide) (by decide) (by decide)
      (Relation.ReflTransGen.single ⟨4, by decide!⟩)⟩

/-- The example of the specification: on the triangle the function returns `[0, 1, 2]`,
of total weight `2`, and not the direct arc of weight `4`; no addition rounds. -/
theorem FindMinimumWeightedPath_triangle :
    FindMinimumWeightedPath 3 triangle 0 2 = some [0, 1, 2] ∧
    arcSum triangle [0, 1, 2] = 2 ∧ arcSum triangle [0, 2] = 4 ∧
    roundedSum triangle [0, 1, 2] = 2 ∧ roundedSum triangle [0, 2] = 4 := by
  decide!

/-- C2: on a graph with non-negative weights, for distinct in-range vertices with `to`
reachable from `from`, enough fuel makes `FindMinimumWeightedPath(from, to)` return a
list whose first element is `from`, whose last element is `to`, and whose consecutive
pairs are all direct arcs of the graph. -/
theorem FindMinimumWeightedPath_is_path (g : WeightedDigraph) (src dst : Nat)
    (hg : g.WellFormed) (hnn : g.NonNegative) (hs : src < g.numVertices)
    (hd : dst < g.numVertices) (hne : src ≠ dst) (hr : g.Reachable src dst) :
    ∃ N, ∀ fuel, N ≤ fuel →
      ∃ path, FindMinimumWeightedPath fuel g src dst = some path ∧
        path.head? = some src ∧ path.getLast? = some dst ∧ List.Chain' g.HasArc path := by
  obtain ⟨N, hN⟩ := FindMinimumWeightedPath_correct hg hnn hs hne hr
  refine ⟨N, fun fuel hfuel => ?_⟩
  obtain ⟨path, h1, h2, _⟩ := hN fuel hfuel
  exact ⟨path, h1, h2⟩

/-- A witness for C2: the triangle example from `0` to `2`. -/
theorem FindMinimumWeightedPath_is_path_witness :
    triangle.WellFormed ∧ triangle.NonNegative ∧ 0 < triangle.numVertices ∧
    2 < triangle.numVertices ∧ (0 : Nat) ≠ 2 ∧ triangle.Reachable 0 2 ∧
    ∃ N, ∀ fuel, N ≤ fuel →
      ∃ path, FindMinimumWeightedPath fuel triangle 0 2 = some path ∧
        path.head? = some 0 ∧ path.getLast? = some 2 ∧ List.Chain' triangle.HasArc path :=
  ⟨wellFormed_construct (by simp [InRange]),
    nonNegative_construct (by simp [InRange]) (by simp), by decide, by decide, by decide,
    Relation.ReflTransGen.tail
      (Relation.ReflTransGen.single (show triangle.HasArc 0 1 from ⟨1, by decide!⟩))
      (show triangle.HasArc 1 2 from ⟨1, by decide!⟩),
    FindMinimumWeightedPath_is_path triangle 0 2 (wellFormed_construct (by simp [InRange]))
      (nonNegative_construct (by simp [InRange]) (by simp)) (by decide) (by decide) (by decide)
      (Relation.ReflTransGen.tail
        (Relation.ReflTransGen.single (show triangle.HasArc 0 1 from ⟨1, by decide!⟩))
        (show triangle.HasArc 1 2 from ⟨1, by decide!⟩))⟩

/-! ## Further properties of the queries -/

/-- C11, evaluated at the claim's own example: on the chain `0→1`, `1→2` there is no
arc `0→2`, but `GetPathWeight([0, 2])` does not return infinity: `IsPathValid` meets
vertex `2`, which has no outgoing arcs, and reads `*path.end()`. -/
theorem GetPathWeight_broken_undefined :
    ¬ chain.HasArc 0 2 ∧ chain.IsPathValid [0, 2] = none ∧ chain.GetPathWeight [0, 2] = none := by
  refine ⟨?_, by decide!, by decide!⟩
  have h : InRange 3 [(0, 1, 2), (1, 2, 3)] := by simp [InRange]
  intro harc
  obtain ⟨w, hw⟩ := (hasArc_construct h 0 2).1 harc
  simp at hw

/-- C12: `FindMinimumWeightedPath(from, from)` is the single-element list `[from]`,
whatever the arcs of the graph and whatever the fuel: neither loop is entered. -/
theorem FindMinimumWeightedPath_self (g : WeightedDigraph) (src fuel : Nat)
    (hg : g.WellFormed) (hs : src < g.numVertices) :
    FindMinimumWeightedPath fuel g src src = some [src] := by
  unfold FindMinimumWeightedPath
  simp

/-- A witness for C12: vertex `0` of a two-cycle with a self-loop at `0`. -/
theorem FindMinimumWeightedPath_self_witness :
    loopCycle.WellFormed ∧ 0 < loopCycle.numVertices ∧
    FindMinimumWeightedPath 0 loopCycle 0 0 = some [0] :=
  ⟨wellFormed_construct (by simp [InRange]), by decide,
    FindMinimumWeightedPath_self loopCycle 0 0 (wellFormed_construct (by simp [InRange]))
      (by decide)⟩

/-- C13: the single-vertex path `[v]` has weight zero, whether or not `v` has
outgoing arcs. -/
theorem GetPathWeight_single (g : WeightedDigraph) (v : Nat) (hg : g.WellFormed)
    (hv : v < g.numVertices) : g.GetPathWeight [v] = some (Weight.fin 0) := by
  simp [GetPathWeight, IsPathValid, isPathValidLoop, getPathWeightLoop]

/-- A witness for C13: vertex `2` of the chain `0→1`, `1→2`, which has no outgoing arcs. -/
theorem GetPathWeight_single_witness :
    chain.WellFormed ∧ 2 < chain.numVertices ∧ chain.GetPathWeight [2] = some (Weight.fin 0) :=
  ⟨wellFormed_construct (by simp [InRange]), by decide,
    GetPathWeight_single chain 2 (wellFormed_construct (by simp [InRange])) (by decide)⟩

/-- C14: `IsPathValid` returns true for the empty list, on which the loop is not
entered, and for every path of length one. -/
theorem IsPathValid_trivial (g : WeightedDigraph) :
    g.IsPathValid [] = some true ∧ ∀ v, g.IsPathValid [v] = some true :=
  ⟨rfl, fun _ => rfl⟩

/-- The example for C14: the empty list and the single vertex `2` of the chain, which
has no outgoing arcs; their weights are zero. -/
theorem IsPathValid_short_chain :
    chain.IsPathValid [] = some true ∧ chain.IsPathValid [2] = some true ∧
    chain.GetPathWeight [] = some (Weight.fin 0) := by
  decide!

/-- C15: under the precondition of `FindMinimumWeightedPath` both loops terminate.
With enough fuel the frontier loop ends in a state with an empty frontier, the
reconstruction loop started at `to` (when `to` differs from `from`) ends with a
list, and the function returns. -/
theorem FindMinimumWeightedPath_terminates (g : WeightedDigraph) (src dst : Nat)
    (hg : g.WellFormed) (hnn : g.NonNegative) (hs : src < g.numVertices)
    (hd : dst < g.numVertices) (hr : g.Reachable src dst) :
    ∃ N, ∀ fuel, N ≤ fuel →
      (∃ s, searchWhile g fuel (searchStart g src) = some s ∧ s.vertexQueue = [] ∧
        (src ≠ dst → ∃ path, rebuild s.previous src fuel dst [dst] = some path)) ∧
      ∃ path, FindMinimumWeightedPath fuel g src dst = some path := by
  obtain ⟨fuel1, s1, rank1, hrun, inv, hq⟩ :=
    searchWhile_terminates hg hnn _ (searchStart g src) (fun _ => 0) rfl (searchStart_inv hs)
  have hmono : ∀ fuel, fuel1 ≤ fuel → searchWhile g fuel (searchStart g src) = some s1 := by
    intro fuel hf
    have := searchWhile_mono g (fuel - fuel1) fuel1 _ _ hrun
    rw [show fuel1 + (fuel - fuel1) = fuel by omega] at this
    exact this
  by_cases hsd : src = dst
  · refine ⟨fuel1, fun fuel hf => ⟨⟨s1, hmono fuel hf, hq, fun h => absurd hsd h⟩, [src], ?_⟩⟩
    unfold FindMinimumWeightedPath
    simp [hsd]
  · obtain ⟨d, hdd⟩ := final_reached inv hq hr
    obtain ⟨N2, hN2⟩ := rebuild_spec hg inv hq _ dst d rfl (Ne.symm hsd) hdd
    refine ⟨max fuel1 N2, fun fuel hf => ?_⟩
    have hf1 : fuel1 ≤ fuel := le_trans (le_max_left _ _) hf
    have hf2 : N2 ≤ fuel := le_trans (le_max_right _ _) hf
    obtain ⟨pre, h1, _⟩ := hN2 fuel hf2 [dst]
    refine ⟨⟨s1, hmono fuel hf1, hq, fun _ => ⟨_, h1⟩⟩, pre ++ [dst], ?_⟩
    rw [FindMinimumWeightedPath_eq fuel g hsd, hmono fuel hf1]
    exact h1

/-- A witness for C15: the triangle example from `0` to `2`. -/
theorem FindMinimumWeightedPath_terminates_witness :
    triangle.WellFormed ∧ triangle.NonNegative ∧ 0 < triangle.numVertices ∧
    2 < triangle.numVertices ∧ triangle.Reachable 0 2 ∧
    ∃ N, ∀ fuel, N ≤ fuel →
      (∃ s, searchWhile triangle fuel (searchStart triangle 0) = some s ∧ s.vertexQueue = [] ∧
        ((0 : Nat) ≠ 2 → ∃ path, rebuild s.previous 0 fuel 2 [2] = some path)) ∧
      ∃ path, FindMinimumWeightedPath fuel triangle 0 2 = some path :=
  ⟨wellFormed_construct (by simp [InRange]),
    nonNegative_construct (by simp [InRange]) (by simp), by decide, by decide,
    Relation.ReflTransGen.single (show triangle.HasArc 0 2 from ⟨4, by decide!⟩),
    FindMinimumWeightedPath_terminates triangle 0 2 (wellFormed_construct (by simp [InRange]))
      (nonNegative_construct (by simp [InRange]) (by simp)) (by decide) (by decide)
      (Relation.ReflTransGen.single (show triangle.HasArc 0 2 from ⟨4, by decide!⟩))⟩

/-- C17: on a graph built from in-range triples, for distinct in-range vertices,
`DoesPathExist(from, to)` returns true exactly when a sequence of one or more direct
arcs leads from `from` to `to`; the early exits of the loop body do not alter this. -/
theorem DoesPathExist_distinct (n : Nat) (arcs : List (Nat × Nat × ℚ)) (src dst fuel : Nat)
    (h : InRange n arcs) (hs : src < n) (hd : dst < n) (hne : src ≠ dst) (hfuel : n ≤ fuel) :
    ∃ b, DoesPathExist fuel (construct n arcs) src dst = some b ∧
      (b = true ↔ Relation.TransGen (construct n arcs).HasArc src dst) := by
  obtain ⟨b, hb, h1, _⟩ := @DoesPathExist_eq _ (wellFormed_construct h) src dst
    (show src < (construct n arcs).numVertices by rw [numVertices_construct]; exact hs) fuel
    (show (construct n arcs).numVertices ≤ fuel by rw [numVertices_construct]; exact hfuel)
  refine ⟨b, hb, ?_⟩
  rw [h1 hne]
  unfold Reachable
  rw [Relation.reflTransGen_iff_eq_or_transGen]
  constructor
  · rintro (h0 | h0)
    · exact absurd h0.symm hne
    · exact h0
  · intro h0
    exact Or.inr h0

/-- A witness for C17: the chain `0→1`, `1→2` from `0` to `2`. -/
theorem DoesPathExist_distinct_witness :
    InRange 3 [(0, 1, 2), (1, 2, 3)] ∧ 0 < 3 ∧ 2 < 3 ∧ (0 : Nat) ≠ 2 ∧ 3 ≤ 3 ∧
    ∃ b, DoesPathExist 3 (construct 3 [(0, 1, 2), (1, 2, 3)]) 0 2 = some b ∧
      (b = true ↔ Relation.TransGen (construct 3 [(0, 1, 2), (1, 2, 3)]).HasArc 0 2) :=
  ⟨by simp [InRange], by decide, by decide, by decide, by decide,
    DoesPathExist_distinct 3 [(0, 1, 2), (1, 2, 3)] 0 2 3 (by simp [InRange]) (by decide)
      (by decide) (by decide) (by decide)⟩

/-- C18: `DoesPathExist(v, v)` returns true exactly when the self-loop `v → v` is
stored; without it the answer is false, whether `v` has no outgoing arcs or lies on
a longer cycle. -/
theorem DoesPathExist_same (g : WeightedDigraph) (v fuel : Nat) (hg : g.WellFormed)
    (hv : v < g.numVertices) (hfuel : g.numVertices ≤ fuel) :
    ∃ b, DoesPathExist fuel g v v = some b ∧ (b = true ↔ g.HasArc v v) := by
  obtain ⟨b, hb, _, h2⟩ := @DoesPathExist_eq g hg v v hv fuel hfuel
  exact ⟨b, hb, h2 rfl⟩

/-- A witness for C18: vertex `0` of the two-cycle `0→1`, `1→0`. -/
theorem DoesPathExist_same_witness :
    twoCycle.WellFormed ∧ 0 < twoCycle.numVertices ∧ twoCycle.numVertices ≤ 2 ∧
    ∃ b, DoesPathExist 2 twoCycle 0 0 = some b ∧ (b = true ↔ twoCycle.HasArc 0 0) :=
  ⟨wellFormed_construct (by simp [InRange]), by decide, by decide,
    DoesPathExist_same twoCycle 0 2 (wellFormed_construct (by simp [InRange])) (by decide)
      (by decide)⟩

/-- The example of C18: with arcs `0→1` and `1→0` vertex `0` lies on a cycle, yet
`DoesPathExist(0, 0)` is false; adding the self-loop `0→0` makes it true. -/
theorem DoesPathExist_twoCycle :
    DoesPathExist 2 twoCycle 0 0 = some false ∧ DoesPathExist 2 loopCycle 0 0 = some true := by
  decide!

theorem matrixAgrees_of_wellFormed {g : WeightedDigraph} (hg : g.WellFormed) :
    g.MatrixAgrees := by
  intro u v hu hv
  rw [hg.matrix_iff u v hu hv]
  unfold HasArc
  constructor
  · rintro ⟨w, hw⟩
    exact List.mem_map.2 ⟨(v, w), hw, rfl⟩
  · intro hmem
    obtain ⟨e, he, hk⟩ := List.mem_map.1 hmem
    exact ⟨e.2, by rw [← hk]; exact he⟩

/-- C19: the matrix and the out-arc maps agree after the initialisation loops, after
the whole construction, and after one more `InsertArc` on a constructed graph; and
whenever `GetArcWeight` takes its branch for an existing arc, `find` returns an entry,
whose weight is the result. -/
theorem representation_invariant (n : Nat) (arcs : List (Nat × Nat × ℚ)) (src dst : Nat)
    (weight : ℚ) (h : InRange n arcs) (hs : src < n) (hd : dst < n) :
    (initial n).MatrixAgrees ∧ (construct n arcs).MatrixAgrees ∧
    ((construct n arcs).InsertArc src dst weight).MatrixAgrees ∧
    (((construct n arcs).row src).getD dst false = true →
      ∃ found, mapFind ((construct n arcs).outArcs src) dst = some found ∧
        (construct n arcs).GetArcWeight src dst = some (Weight.fin found.2)) := by
  have hg := wellFormed_construct h
  have hs1 : src < (construct n arcs).numVertices := by rw [numVertices_construct]; exact hs
  have hd1 : dst < (construct n arcs).numVertices := by rw [numVertices_construct]; exact hd
  refine ⟨matrixAgrees_of_wellFormed (wellFormed_initial n), matrixAgrees_of_wellFormed hg,
    matrixAgrees_of_wellFormed (wellFormed_InsertArc hg weight hs1 hd1), ?_⟩
  intro hrow
  obtain ⟨w, hw⟩ := (hg.matrix_iff src dst hs1 hd1).1 hrow
  have hf := mapFind_of_mem (hg.keys_nodup src) hw
  exact ⟨(dst, w), hf, GetArcWeight_of_mapFind hg hs1 hd1 hf⟩

/-- A witness for C19: the chain `0→1`, `1→2`, and one more insertion of `0→1`. -/
theorem representation_invariant_witness :
    InRange 3 [(0, 1, 2), (1, 2, 3)] ∧ 0 < 3 ∧ 1 < 3 ∧
    ((initial 3).MatrixAgrees ∧ (construct 3 [(0, 1, 2), (1, 2, 3)]).MatrixAgrees ∧
    ((construct 3 [(0, 1, 2), (1, 2, 3)]).InsertArc 0 1 7).MatrixAgrees ∧
    (((construct 3 [(0, 1, 2), (1, 2, 3)]).row 0).getD 1 false = true →
      ∃ found, mapFind ((construct 3 [(0, 1, 2), (1, 2, 3)]).outArcs 0) 1 = some found ∧
        (construct 3 [(0, 1, 2), (1, 2, 3)]).GetArcWeight 0 1 = some (Weight.fin found.2))) :=
  ⟨by simp [InRange], by decide, by decide,
    representation_invariant 3 [(0, 1, 2), (1, 2, 3)] 0 1 7 (by simp [InRange]) (by decide)
      (by decide)⟩

theorem Weight.add_fin (a b : ℚ) :
    (Weight.fin a).add (Weight.fin b) = Weight.fin (roundDouble (a + b)) := rfl

theorem mapFind_isSome_iff (g : WeightedDigraph) (u v : Nat) :
    (∃ e, mapFind (g.outArcs u) v = some e) ↔ g.HasArc u v := by
  constructor
  · rintro ⟨e, he⟩
    obtain ⟨hm, hk⟩ := mapFind_some he
    exact ⟨e.2, by rw [← hk]; exact hm⟩
  · rintro ⟨w, hw⟩
    cases hf : mapFind (g.outArcs u) v with
    | none => exact absurd hw (mapFind_eq_none.1 hf w)
    | some e => exact ⟨e, rfl⟩
/-- The loops of `IsPathValid` and `GetPathWeight` on a path none of whose later
vertices is a sink. -/
theorem pathLoops_spec (g : WeightedDigraph) :
    ∀ (rest : List Nat) (prev : Nat) (c : ℚ), (∀ x, x ∈ rest → g.outArcs x ≠ []) →
      ∃ b, isPathValidLoop g prev rest = some b ∧
        (b = true ↔ List.Chain g.HasArc prev rest) ∧
        (b = true → getPathWeightLoop g prev rest (Weight.fin c)
          = some (Weight.fin (roundedSumFrom g c prev rest))) := by
  intro rest
  induction rest with
  | nil =>
    intro prev c _
    exact ⟨true, rfl, by simp, fun _ => by simp [getPathWeightLoop, roundedSumFrom]⟩
  | cons i rest ih =>
    intro prev c hsink
    have hi : ¬ (g.outArcs i).length = 0 := by
      intro hlen
      exact hsink i (List.mem_cons_self _ _) (List.length_eq_zero.1 hlen)
    rw [isPathValidLoop, if_neg hi]
    cases hf : mapFind (g.outArcs prev) i with
    | none =>
      refine ⟨false, rfl, ?_, fun hb => absurd hb (by simp)⟩
      constructor
      · intro hb
        exact absurd hb (by simp)
      · intro hc
        rw [List.chain_cons] at hc
        obtain ⟨e, he⟩ := (mapFind_isSome_iff g prev i).2 hc.1
        rw [hf] at he
        exact absurd he (by simp)
    | some found =>
      have harc : g.HasArc prev i := (mapFind_isSome_iff g prev i).1 ⟨found, hf⟩
      obtain ⟨b, hb1, hb2, hb3⟩ :=
        ih i (roundDouble (c + found.2)) (fun x hx => hsink x (List.mem_cons_of_mem _ hx))
      refine ⟨b, hb1, ?_, ?_⟩
      · rw [hb2, List.chain_cons]
        constructor
        · intro hc
          exact ⟨harc, hc⟩
        · intro hc
          exact hc.2
      · intro hb
        rw [getPathWeightLoop, hf]
        simp only [Weight.add_fin]
        rw [hb3 hb, roundedSumFrom]
        have hst : g.storedWeight prev i = some found.2 := by
          unfold storedWeight
          rw [hf]
          rfl
        rw [hst]
        simp only [Option.getD_some]

/-- C20, refuted as stated: on the graph `0→1 (w=2^60)`, `1→2 (w=1)`, `0→3 (w=2^60)`,
`3→2 (w=1/2)`, `2→0 (w=1)` the vertices `1` and `2` have outgoing arcs and the path
`[0, 1, 2]` is valid, but `GetPathWeight` returns `2^60`, not the sum `2^60 + 1` of
the stored weights: the addition `2^60 + 1` rounds to `2^60`. -/
theorem GetPathWeight_rounds :
    (∀ x, x ∈ [1, 2] → roundingGraph.outArcs x ≠ []) ∧
    roundingGraph.IsPathValid [0, 1, 2] = some true ∧
    roundingGraph.GetPathWeight [0, 1, 2] = some (Weight.fin 1152921504606846976) ∧
    arcSum roundingGraph [0, 1, 2] = 1152921504606846977 := by
  decide!

/-- C20, amended: on a non-empty path whose vertices after the first all have outgoing
arcs, `IsPathValid` returns true exactly when every consecutive pair is a direct arc,
and then `GetPathWeight` returns the stored weights of those pairs added up one after
the other in double arithmetic, which is their exact sum when no addition rounds. -/
theorem IsPathValid_without_sinks (g : WeightedDigraph) (v : Nat) (rest : List Nat)
    (hg : g.WellFormed) (hin : ∀ x, x ∈ v :: rest → x < g.numVertices)
    (hsink : ∀ x, x ∈ rest → g.outArcs x ≠ []) :
    ∃ b, g.IsPathValid (v :: rest) = some b ∧
      (b = true ↔ List.Chain' g.HasArc (v :: rest)) ∧
      (b = true → g.GetPathWeight (v :: rest) = some (Weight.fin (roundedSum g (v :: rest)))) ∧
      (b = true → sumsExactly g (v :: rest) →
        g.GetPathWeight (v :: rest) = some (Weight.fin (arcSum g (v :: rest)))) := by
  obtain ⟨b, hb1, hb2, hb3⟩ := pathLoops_spec g rest v 0 hsink
  have hw : b = true →
      g.GetPathWeight (v :: rest) = some (Weight.fin (roundedSum g (v :: rest))) := by
    intro hb
    have hv : g.IsPathValid (v :: rest) = some true := by rw [← hb]; exact hb1
    unfold GetPathWeight
    rw [hv]
    simp only
    rw [hb3 hb]
    rfl
  refine ⟨b, hb1, hb2, hw, ?_⟩
  intro hb he
  rw [hw hb, roundedSum_exact g (v :: rest) he]

/-- A witness for C20 as amended: the path `[0, 1, 0]` on the two-cycle `0→1`, `1→0`. -/
theorem IsPathValid_without_sinks_witness :
    twoCycle.WellFormed ∧ (∀ x, x ∈ [0, 1, 0] → x < twoCycle.numVertices) ∧
    (∀ x, x ∈ [1, 0] → twoCycle.outArcs x ≠ []) ∧
    ∃ b, twoCycle.IsPathValid [0, 1, 0] = some b ∧
      (b = true ↔ List.Chain' twoCycle.HasArc [0, 1, 0]) ∧
      (b = true → twoCycle.GetPathWeight [0, 1, 0]
        = some (Weight.fin (roundedSum twoCycle [0, 1, 0]))) ∧
      (b = true → sumsExactly twoCycle [0, 1, 0] →
        twoCycle.GetPathWeight [0, 1, 0] = some (Weight.fin (arcSum twoCycle [0, 1, 0]))) :=
  ⟨wellFormed_construct (by simp [InRange]), by decide, by decide!,
    IsPathValid_without_sinks twoCycle 0 [1, 0] (wellFormed_construct (by simp [InRange]))
      (by decide) (by decide!)⟩

/-- The example for C20: on the two-cycle the path `[0, 1, 0]` is valid, no addition
rounds, and it weighs `2`. -/
theorem GetPathWeight_twoCycle :
    twoCycle.IsPathValid [0, 1, 0] = some true ∧
    twoCycle.GetPathWeight [0, 1, 0] = some (Weight.fin 2) ∧
    roundedSum twoCycle [0, 1, 0] = 2 ∧ arcSum twoCycle [0, 1, 0] = 2 := by
  decide!

/-! ## The order of the frontier -/

/-- When the `while` loop ends within `fuel` iterations, its final state is the state
after `fuel` iterations of the loop body. -/
theorem searchIterate_of_searchWhile (g : WeightedDigraph) :
    ∀ (fuel : Nat) (s s1 : PathSearch), searchWhile g fuel s = some s1 →
      searchIterate g fuel s = s1 := by
  intro fuel
  induction fuel with
  | zero =>
    intro s s1 h
    cases hq : s.vertexQueue with
    | nil =>
      rw [searchWhile_nil g _ hq] at h
      exact Option.some.inj h
    | cons x xs =>
      unfold searchWhile at h
      rw [hq] at h
      simp at h
  | succ fuel ih =>
    intro s s1 h
    rw [searchIterate]
    cases hq : s.vertexQueue with
    | nil =>
      rw [searchWhile_nil g _ hq] at h
      exact Option.some.inj h
    | cons x xs =>
      obtain ⟨u, d⟩ := x
      rw [searchWhile_cons g _ hq] at h
      exact ih _ _ h

theorem weight_lt_trans {a b c : Weight} (h1 : a.lt b = true) (h2 : b.lt c = true) :
    a.lt c = true := by
  cases a with
  | inf => simp [Weight.lt] at h1
  | fin x =>
    cases b with
    | inf => simp [Weight.lt] at h2
    | fin y =>
      cases c with
      | inf => simp [Weight.lt]
      | fin z =>
        simp only [Weight.lt, decide_eq_true_eq] at h1 h2 ⊢
        exact lt_trans h1 h2

theorem pairLess_iff (a b : Nat × Weight) :
    pairLess a b = true ↔ a.1 < b.1 ∨ (a.1 = b.1 ∧ a.2.lt b.2 = true) := by
  simp only [pairLess, Bool.or_eq_true, Bool.and_eq_true, Bool.not_eq_true', decide_eq_true_eq,
    decide_eq_false_iff_not]
  constructor
  · rintro (h | ⟨h1, h2⟩)
    · exact Or.inl h
    · rcases Nat.lt_or_ge a.1 b.1 with h3 | h3
      · exact Or.inl h3
      · exact Or.inr ⟨by omega, h2⟩
  · rintro (h | ⟨h1, h2⟩)
    · exact Or.inl h
    · exact Or.inr ⟨by omega, h2⟩

theorem pairLess_trans {a b c : Nat × Weight} (h1 : pairLess a b = true)
    (h2 : pairLess b c = true) : pairLess a c = true := by
  rw [pairLess_iff] at h1 h2 ⊢
  rcases h1 with h1 | ⟨h1, h1w⟩
  · rcases h2 with h2 | ⟨h2, _⟩
    · exact Or.inl (by omega)
    · exact Or.inl (by omega)
  · rcases h2 with h2 | ⟨h2, h2w⟩
    · exact Or.inl (by omega)
    · exact Or.inr ⟨by omega, weight_lt_trans h1w h2w⟩

theorem pairwise_setInsert (x : Nat × Weight) {q : List (Nat × Weight)}
    (h : q.Pairwise (fun a b => pairLess a b = true)) :
    (setInsert x q).Pairwise (fun a b => pairLess a b = true) := by
  induction q with
  | nil => simp [setInsert]
  | cons y ys ih =>
    rw [List.pairwise_cons] at h
    unfold setInsert
    by_cases h1 : pairLess x y = true
    · rw [if_pos h1, List.pairwise_cons]
      refine ⟨?_, List.pairwise_cons.2 h⟩
      intro z hz
      rcases List.mem_cons.1 hz with hz | hz
      · rw [hz]
        exact h1
      · exact pairLess_trans h1 (h.1 z hz)
    · rw [if_neg h1]
      by_cases h2 : pairLess y x = true
      · rw [if_pos h2, List.pairwise_cons]
        refine ⟨?_, ih h.2⟩
        intro z hz
        rcases mem_setInsert.1 hz with hz | hz
        · rw [hz]
          exact h2
        · exact h.1 z hz
      · rw [if_neg h2]
        exact List.pairwise_cons.2 h

theorem pairwise_setErase (x : Nat × Weight) {q : List (Nat × Weight)}
    (h : q.Pairwise (fun a b => pairLess a b = true)) :
    (setErase x q).Pairwise (fun a b => pairLess a b = true) :=
  List.Pairwise.filter _ h

theorem pairwise_relax (u : Nat) (distance : Weight) (s : PathSearch) (i : Nat × ℚ)
    (h : s.vertexQueue.Pairwise (fun a b => pairLess a b = true)) :
    (relax u distance s i).vertexQueue.Pairwise (fun a b => pairLess a b = true) := by
  unfold relax
  simp only
  split
  · exact pairwise_setInsert _ (pairwise_setErase _ h)
  · exact h

theorem pairwise_foldl_relax (u : Nat) (distance : Weight) (arcs : List (Nat × ℚ)) :
    ∀ s : PathSearch, s.vertexQueue.Pairwise (fun a b => pairLess a b = true) →
      (arcs.foldl (relax u distance) s).vertexQueue.Pairwise
        (fun a b => pairLess a b = true) := by
  induction arcs with
  | nil => exact fun s h => h
  | cons i rest ih =>
    intro s h
    rw [List.foldl_cons]
    exact ih _ (pairwise_relax u distance s i h)

/-- The frontier stays sorted by the ordering of `std::pair<int,double>` throughout the
`while` loop. -/
theorem pairwise_searchIterate (g : WeightedDigraph) (k : Nat) :
    ∀ s : PathSearch, s.vertexQueue.Pairwise (fun a b => pairLess a b = true) →
      (searchIterate g k s).vertexQueue.Pairwise (fun a b => pairLess a b = true) := by
  induction k with
  | zero => exact fun s h => h
  | succ k ih =>
    intro s h
    rw [searchIterate]
    cases hq : s.vertexQueue with
    | nil =>
      simp only
      rw [hq]
      exact List.Pairwise.nil
    | cons x queue =>
      obtain ⟨u, distance⟩ := x
      simp only
      apply ih
      apply pairwise_foldl_relax
      rw [hq, List.pairwise_cons] at h
      exact h.2

/-- C16, refuted as stated: on the fork `0→1 (w=5)`, `0→2 (w=1)`, started at `0`, the
frontier after the first iteration holds `(1, 5)` and `(2, 1)`, in this order; the next
iteration extracts vertex `1` at distance `5` although vertex `2` has the smaller
distance `1`. -/
theorem frontier_not_by_distance :
    (searchIterate fork 1 (searchStart fork 0)).vertexQueue
      = [(1, Weight.fin 5), (2, Weight.fin 1)] ∧
    (Weight.fin 1).lt (Weight.fin 5) = true := by
  decide!

/-- C16, amended: the frontier is ordered by (vertex, distance).  At every iteration of
the main loop the extracted element `(u, distance)` comes before every other frontier
entry `e`: it has the smaller vertex id, or the same vertex id and the smaller
distance. -/
theorem frontier_order (g : WeightedDigraph) (src k u : Nat) (distance : Weight)
    (queue : List (Nat × Weight)) (e : Nat × Weight)
    (hq : (searchIterate g k (searchStart g src)).vertexQueue = (u, distance) :: queue)
    (he : e ∈ queue) :
    u < e.1 ∨ (u = e.1 ∧ distance.lt e.2 = true) := by
  have hstart : (searchStart g src).vertexQueue.Pairwise (fun a b => pairLess a b = true) := by
    simp [searchStart, setInsert]
  have h := pairwise_searchIterate g k _ hstart
  rw [hq, List.pairwise_cons] at h
  exact (pairLess_iff (u, distance) e).1 (h.1 e he)

/-- A witness for C16 as amended: the fork example after one iteration. -/
theorem frontier_order_witness :
    (searchIterate fork 1 (searchStart fork 0)).vertexQueue
      = (1, Weight.fin 5) :: [(2, Weight.fin 1)] ∧
    ((2 : Nat), Weight.fin 1) ∈ [((2 : Nat), Weight.fin 1)] ∧
    ((1 : Nat) < ((2 : Nat), Weight.fin 1).1 ∨
      ((1 : Nat) = ((2 : Nat), Weight.fin 1).1 ∧
        (Weight.fin 5).lt ((2 : Nat), Weight.fin 1).2 = true)) :=
  ⟨by decide!, by simp,
    frontier_order fork 0 1 1 (Weight.fin 5) [(2, Weight.fin 1)] (2, Weight.fin 1)
      (by decide!) (by simp)⟩

end WeightedDigraph
